import Mathlib

/-!
Verification of the dependency-resolution engine of the
Mixed-Reality-Feature-Tool-For-Mac repository (`src/core_logic.cpp` /
`src/core_logic.h`).

The C++ code is shallowly embedded: strings are Lean `String`s (the tool only
ever handles ASCII package names and version numbers, so `Char` = byte),
`std::map<std::string, T>` is an association list kept sorted by key (which
makes iteration order match the C++ iteration order), `std::set<std::string>`
is a sorted duplicate-free list, C++ exceptions (`std::stoi` and friends) are
`Except`/error results, and the recursive dependency walk is given explicit
fuel (the termination theorem shows enough fuel always exists).
-/

namespace MRTKTool

/-- C `isspace` for the default locale: space and the five control
whitespace characters (codes 9–13). Used by `std::stoi`'s prefix skipping. -/
def cIsSpace (c : Char) : Bool :=
  c = ' ' || (9 ≤ c.toNat && c.toNat ≤ 13)

/-- Numeric value of a list of decimal digit characters. -/
def digitsToNat (ds : List Char) : Nat :=
  ds.foldl (fun a c => 10 * a + (c.toNat - 48)) 0

/-- `std::stoi` on a byte string: skip leading whitespace, read an optional
sign and then a maximal run of decimal digits.  Returns `none` where the C++
function throws: when no digits are found (`std::invalid_argument`) or the
value does not fit in a 32-bit `int` (`std::out_of_range`).  Trailing
non-numeric characters are ignored, exactly as in C++. -/
def cppStoi (s : String) : Option Int :=
  let cs := s.data.dropWhile cIsSpace
  let signed : Bool × List Char :=
    match cs with
    | '-' :: t => (true, t)
    | '+' :: t => (false, t)
    | _ => (false, cs)
  let ds := signed.2.takeWhile Char.isDigit
  if ds.isEmpty then none
  else
    let v : Int := (digitsToNat ds : Nat)
    let i : Int := if signed.1 then -v else v
    if i < -2147483648 ∨ 2147483647 < i then none else some i

/-- Helper for `cppSplit`: `acc` holds the (reversed) characters of the token
currently being read. -/
def cppSplitAux (delim : Char) (acc : List Char) : List Char → List String
  | [] => [⟨acc.reverse⟩]
  | c :: t =>
    if c = delim then
      ⟨acc.reverse⟩ ::
        (match t with
         | [] => []
         | c' :: t' => cppSplitAux delim [] (c' :: t'))
    else cppSplitAux delim (c :: acc) t

/-- The token split performed by `while (getline(ss, temp, '.')) ...` on a
`std::stringstream`: splits at every occurrence of the delimiter; a trailing
delimiter does not produce a trailing empty token, and the empty string
produces no tokens at all. -/
def cppSplit (delim : Char) : List Char → List String
  | [] => []
  | c :: t => cppSplitAux delim [] (c :: t)

/-- Lexicographic `>` on byte strings, i.e. C++ `std::string::operator>`
(`std::char_traits<char>` compares bytes as unsigned values; for the ASCII
data handled here this is the `Char` code-point order). -/
def lexGtL : List Char → List Char → Bool
  | [], _ => false
  | _ :: _, [] => true
  | x :: xs, y :: ys =>
    if y < x then true
    else if x < y then false
    else lexGtL xs ys

/-- C++ `a > b` on `std::string`. -/
def strGt (a b : String) : Bool := lexGtL a.data b.data

/-- C++ `a < b` on `std::string`. -/
def strLt (a b : String) : Bool := strGt b a

/-- C++ `s.starts_with(p)` (byte-wise prefix test). -/
def strStartsWith (s p : String) : Bool := p.data.isPrefixOf s.data

/-- C++ `s.substr(n)` (byte offset; ASCII data so byte = char). -/
def strDrop (s : String) (n : Nat) : String := ⟨s.data.drop n⟩

/-- The part of a version string before its first `-`
(`v.substr(0, v.find('-'))`; the whole string when there is no `-`). -/
def mainPart (s : String) : String := ⟨s.data.takeWhile (· ≠ '-')⟩

/-- The part of a version string after its first `-`
(`v.substr(pos + 1)`); only used when a `-` is present. -/
def tagPart (s : String) : String := ⟨(s.data.dropWhile (· ≠ '-')).drop 1⟩

/-- Whether a version string contains a `-`, i.e. `find('-') != npos`:
the version carries a pre-release tag. -/
def hasTag (s : String) : Bool := s.data.contains '-'

/-- `std::stoi` lifted into the exception monad: the surrounding C++ code
lets the exception propagate, aborting the computation. -/
def stoiE (s : String) : Except Unit Int :=
  match cppStoi s with
  | none => .error ()
  | some i => .ok i

/-- The parse loop `while (getline(ss, temp, '.')) { parts.push_back(std::stoi(temp)); }`
(`core_logic.cpp:471-475`): parses every token, aborting at the first
`std::stoi` exception. -/
def mapStoi : List String → Except Unit (List Int)
  | [] => .ok []
  | t :: rest => do
    let v ← stoiE t
    let vs ← mapStoi rest
    .ok (v :: vs)

/-- The element-wise comparison loop over the shared prefix of the two
parsed main sequences (`core_logic.cpp:478-481`): `some b` models the early
`return b`, `none` models falling out of the loop. -/
def cmpMainLoop : List Int → List Int → Option Bool
  | o :: os, n :: ns =>
    if o < n then some true
    else if n < o then some false
    else cmpMainLoop os ns
  | _, _ => none

/-- `o` is `true` iff the tag element is non-empty and all digits
(`!p.empty() && std::all_of(p.begin(), p.end(), ::isdigit)`). -/
def tagElemIsNum (s : String) : Bool := !s.isEmpty && s.data.all Char.isDigit

/-- The element-wise comparison loop over the shared prefix of the two
`.`-split pre-release tags (`core_logic.cpp:504-517`): numeric comparison
when both elements are all digits (where `std::stoi` may throw), C++ string
comparison otherwise; `some b` models the early `return b`. -/
def cmpTagLoop : List String → List String → Except Unit (Option Bool)
  | o :: os, n :: ns =>
    if tagElemIsNum o && tagElemIsNum n then do
      let a ← stoiE o
      let b ← stoiE n
      if a < b then .ok (some true)
      else if b < a then .ok (some false)
      else cmpTagLoop os ns
    else
      if strGt n o then .ok (some true)
      else if strGt o n then .ok (some false)
      else cmpTagLoop os ns
  | _, _ => .ok none

/-- `MRTKToolCore::isNewerVersion(v_old, v_new)` (`core_logic.cpp:462-520`):
`true` iff `v_new` is strictly newer than `v_old`.  `.error ()` models the
uncaught `std::stoi` exception on a malformed main-sequence element or an
out-of-`int`-range numeral. -/
def isNewerVersion (vOld vNew : String) : Except Unit Bool := do
  let oldParts ← mapStoi (cppSplit '.' (mainPart vOld).data)
  let newParts ← mapStoi (cppSplit '.' (mainPart vNew).data)
  match cmpMainLoop oldParts newParts with
  | some b => .ok b
  | none =>
    if oldParts.length < newParts.length then .ok true
    else if newParts.length < oldParts.length then .ok false
    else
      let oldIsPre := hasTag vOld
      let newIsPre := hasTag vNew
      if oldIsPre && !newIsPre then .ok true
      else if !oldIsPre && newIsPre then .ok false
      else if !oldIsPre && !newIsPre then .ok false
      else
        let oldTagParts := cppSplit '.' (tagPart vOld).data
        let newTagParts := cppSplit '.' (tagPart vNew).data
        match ← cmpTagLoop oldTagParts newTagParts with
        | some b => .ok b
        | none => .ok (oldTagParts.length < newTagParts.length)

/-! ## Sorted maps and sets

`std::map<std::string, α>` is modelled as an association list kept sorted by
key (so that list order = C++ iteration order), `std::set<std::string>` as a
sorted duplicate-free list. -/

/-- `m[c] = v` on a `std::map` modelled as a key-sorted association list. -/
def mapSet {α : Type} : List (String × α) → String → α → List (String × α)
  | [], c, v => [(c, v)]
  | (k, w) :: t, c, v =>
    if c = k then (c, v) :: t
    else if strLt c k then (c, v) :: (k, w) :: t
    else (k, w) :: mapSet t c v

/-- Lookup in the association-list model of `std::map` (`find` / `count` /
`at`). -/
def mapGet {α : Type} : List (String × α) → String → Option α
  | [], _ => none
  | (k, w) :: t, c => if c = k then some w else mapGet t c

/-- `s.insert(x)` on a `std::set` modelled as a sorted duplicate-free list. -/
def setIns : List String → String → List String
  | [], x => [x]
  | y :: t, x =>
    if x = y then y :: t
    else if strLt x y then x :: y :: t
    else y :: setIns t x

/-! ## The recursive dependency walk

`MRTKToolCore::resolveDependenciesRecursive` (`core_logic.cpp:416-460`).

The network-and-archive collaborator (`findDownloadUrlForComponent` +
`downloadFile` + `getDependenciesFromTgz`) is abstracted into a finite table
`DepsMap` from `(component, version)` to the declared `dependencies` mapping
of that artifact: a `none` lookup models "no download URL found / download
failed" (the walk returns without recursing either way), and a `some` lookup
models a successfully inspected artifact whose `package.json` declares the
given dependency list (listed in key-sorted order, as `std::map` iterates). -/

/-- Per-artifact dependency data: `(component, version) ↦ declared deps`. -/
def DepsMap : Type := List ((String × String) × List (String × String))

/-- Dependency lookup for one `(component, version)` artifact. -/
def depsGet (d : DepsMap) (c v : String) : Option (List (String × String)) :=
  match d with
  | [] => none
  | (k, l) :: t => if k.1 = c ∧ k.2 = v then some l else depsGet t c v

/-- The mutable state threaded through the walk: `requiredMrtkPackages`
(a `std::map`), the run-scoped `processedComponents` (a `std::set` of
`component + "-" + version` keys), and — as ghost instrumentation that no
code path reads — the trace `calls` of all invocations of the recursive
function, used only to state the specification's "newest of all versions
seen" property. -/
structure RState where
  required : List (String × String)
  processed : List String
  calls : List (String × String)
deriving DecidableEq, Repr

/-- Result of a fuelled run: `fuelOut` is the artificial out-of-fuel marker
(the termination theorem shows it never happens for enough fuel), `rerror`
models an uncaught C++ exception propagating out of the walk, `done` a
normal return. -/
inductive RRes (α : Type) where
  | fuelOut
  | rerror
  | done (s : α)
deriving DecidableEq, Repr

/-- The `for (const auto& [depName, depVersion] : dependencies)` loop body
(`core_logic.cpp:450-459`), processing declared dependencies in order:
dependencies in the externally-managed `com.unity.` namespace are skipped;
an `org.mixedrealitytoolkit`-prefixed name is stripped of its first 24
characters before the recursive call; anything else recurses under its full
name.  `step` is the recursive call at the next fuel level. -/
def resolveChildren (step : String → String → RState → RRes RState) :
    List (String × String) → RState → RRes RState
  | [], s => .done s
  | (depName, depVersion) :: rest, s =>
    if strStartsWith depName "com.unity." then resolveChildren step rest s
    else
      let comp :=
        if strStartsWith depName "org.mixedrealitytoolkit" then strDrop depName 24
        else depName
      match step comp depVersion s with
      | .done s' => resolveChildren step rest s'
      | e => e

/-- `MRTKToolCore::resolveDependenciesRecursive(component, version,
processedComponents)` (`core_logic.cpp:416-460`), with explicit fuel.  Every
call first appends itself to the ghost trace; it returns early when its
`component + "-" + version` key was already processed, or when an existing
requirement for `component` is not older than `version` (an error from the
comparator aborts the walk); otherwise it records the requirement and the
key and recurses through the artifact's declared dependencies. -/
def resolveNode (deps : DepsMap) (fuel : Nat) (component version : String)
    (s : RState) : RRes RState :=
  match fuel with
  | 0 => .fuelOut
  | Nat.succ n =>
    let s := { s with calls := s.calls ++ [(component, version)] }
    let componentKey := component ++ "-" ++ version
    if s.processed.contains componentKey then .done s
    else
      let proceed : Except Unit Bool :=
        match mapGet s.required component with
        | none => .ok true
        | some oldV => isNewerVersion oldV version
      match proceed with
      | .error _ => .rerror
      | .ok false => .done s
      | .ok true =>
        let s := { s with
          required := mapSet s.required component version,
          processed := setIns s.processed componentKey }
        match depsGet deps component version with
        | none => .done s
        | some depList =>
          resolveChildren (fun c v st => resolveNode deps n c v st) depList s

/-- The loop in `resolveDependencies` that launches the walk once per
user-selected package (`core_logic.cpp:140-143`), in `std::map` iteration
order. -/
def resolveRoots (deps : DepsMap) (fuel : Nat) :
    List (String × String) → RState → RRes RState
  | [], s => .done s
  | (name, version) :: rest, s =>
    match resolveNode deps fuel name version s with
    | .done s' => resolveRoots deps fuel rest s'
    | e => e

/-! ## The resolution driver

`MRTKToolCore::resolveDependencies` (`core_logic.cpp:117-151`) and the
engine state it lives on (`core_logic.h:76-82`). -/

/-- `enum class PackageType` (`core_logic.h:15`). -/
inductive PackageType where
  | MRTK
  | OpenXR
deriving DecidableEq, Repr

/-- `struct SelectablePackage` (`core_logic.h:18-22`). -/
structure SelectablePackage where
  displayName : String
  identifier : String
  type : PackageType
deriving DecidableEq, Repr

/-- The engine state: the member variables of `MRTKToolCore` that the
resolution phase reads and writes (`core_logic.h:60-61, 76-82`). -/
structure Engine where
  allPackages : List SelectablePackage
  mrtkComponentVersions : List (String × List String)
  requiredMrtkPackages : List (String × String)
  resolvedUserSelections : List (String × String)
  resolvedDependencies : List (String × String)
  requiredOpenXrPackages : List String
deriving DecidableEq, Repr

/-- One step of insertion sort with the (possibly-throwing) comparator
`cmp`, where `cmp a b = true` means `a` is ordered strictly before `b`:
`x` is placed before the first element not strictly before it. -/
def insertSortedE (cmp : String → String → Except Unit Bool) (x : String) :
    List String → Except Unit (List String)
  | [] => .ok [x]
  | y :: t => do
    if ← cmp y x then
      let t' ← insertSortedE cmp x t
      .ok (y :: t')
    else .ok (x :: y :: t)

/-- `std::sort(v.begin(), v.end(), cmp)` modelled as a deterministic
(insertion) sort.  `std::sort` requires `cmp` to be a strict weak order —
otherwise its behaviour is undefined — and is only ever called here with
`isNewerVersion` on catalog version lists; results about the sort are
stated under a well-formedness hypothesis on those lists that makes the
comparator a strict weak order, the regime in which any conforming
`std::sort` produces this order. -/
def sortE (cmp : String → String → Except Unit Bool) :
    List String → Except Unit (List String)
  | [] => .ok []
  | x :: t => do insertSortedE cmp x (← sortE cmp t)

/-- The selection loop of `resolveDependencies` (`core_logic.cpp:127-137`):
each selected index is looked up in `allPackages` (`std::vector::at`, which
throws when out of range — modelled `rerror`); an MRTK package has its
catalog version list sorted in place by `isNewerVersion` and its newest
version recorded in `resolvedUserSelections`; an OpenXR package has its
identifier inserted into `requiredOpenXrPackages`.  (`versions.back()` on an
empty catalog list is undefined behaviour; the model returns `rerror`, and
all results about runs are conditioned on a normal `done` outcome.) -/
def selLoop (allPackages : List SelectablePackage) :
    List Nat → List (String × List String) → List (String × String) →
    List String →
    RRes (List (String × List String) × List (String × String) × List String)
  | [], catalog, rus, oxr => .done (catalog, rus, oxr)
  | idx :: rest, catalog, rus, oxr =>
    match allPackages.get? idx with
    | none => .rerror
    | some pkg =>
      match pkg.type with
      | .MRTK =>
        match mapGet catalog pkg.identifier with
        | none => .rerror
        | some versions =>
          match sortE isNewerVersion versions with
          | .error _ => .rerror
          | .ok sorted =>
            match sorted.getLast? with
            | none => .rerror
            | some latestVersion =>
              selLoop allPackages rest (mapSet catalog pkg.identifier sorted)
                (mapSet rus pkg.identifier latestVersion) oxr
      | .OpenXR => selLoop allPackages rest catalog rus (setIns oxr pkg.identifier)

/-- The derivation of the dependency-only view (`core_logic.cpp:146-150`):
entries of `requiredMrtkPackages` whose key is not a user selection. -/
def deriveResolvedDependencies (required rus : List (String × String)) :
    List (String × String) :=
  required.foldl
    (fun acc p => if (mapGet rus p.1).isNone then mapSet acc p.1 p.2 else acc) []

/-- `MRTKToolCore::resolveDependencies(selectedIndices)`
(`core_logic.cpp:117-151`): clears `requiredMrtkPackages`,
`resolvedUserSelections` and `resolvedDependencies` (but not
`requiredOpenXrPackages`), runs the selection loop, walks the dependency
graph from every user selection with a fresh run-scoped
`processedComponents` set, and derives the dependency-only view.  Returns
the updated engine together with the ghost invocation trace of the walk. -/
def resolveDependencies (e : Engine) (deps : DepsMap) (fuel : Nat)
    (selectedIndices : List Nat) : RRes (Engine × List (String × String)) :=
  match selLoop e.allPackages selectedIndices e.mrtkComponentVersions [] e.requiredOpenXrPackages with
  | .fuelOut => .fuelOut
  | .rerror => .rerror
  | .done (catalog, rus, oxr) =>
    match resolveRoots deps fuel rus ⟨[], [], []⟩ with
    | .fuelOut => .fuelOut
    | .rerror => .rerror
    | .done s =>
      .done ({ e with
        mrtkComponentVersions := catalog,
        requiredMrtkPackages := s.required,
        resolvedUserSelections := rus,
        resolvedDependencies := deriveResolvedDependencies s.required rus,
        requiredOpenXrPackages := oxr }, s.calls)

/-! ## Unity host versions

`struct UnityVersion` (`core_logic.h:25-32`, `core_logic.cpp:48-64`). -/

/-- One `%d` conversion of `sscanf`: skip leading whitespace, optional sign,
then a maximal non-empty digit run; `none` when no digits are found (the
conversion fails and `sscanf` stops).  Returns the value and the unread
rest.  (Overflow of `%d` is undefined behaviour in C; the tool only meets
small Unity version numbers, so the model keeps the exact value.) -/
def scanInt (cs : List Char) : Option (Int × List Char) :=
  let cs1 := cs.dropWhile cIsSpace
  let signed : Bool × List Char :=
    match cs1 with
    | '-' :: t => (true, t)
    | '+' :: t => (false, t)
    | _ => (false, cs1)
  let ds := signed.2.takeWhile Char.isDigit
  if ds.isEmpty then none
  else
    let v : Int := (digitsToNat ds : Nat)
    some (if signed.1 then -v else v, signed.2.dropWhile Char.isDigit)

/-- `std::sscanf(s, "%d.%d.%d", &major, &minor, &patch)`: conversions are
attempted left to right, a failing conversion or a mismatched literal `.`
stops the scan, and fields not assigned keep their initial value `0`
(the in-class initializers of `UnityVersion`). -/
def sscanf3 (cs : List Char) : Int × Int × Int :=
  match scanInt cs with
  | none => (0, 0, 0)
  | some (a, r1) =>
    match r1 with
    | '.' :: r2 =>
      match scanInt r2 with
      | none => (a, 0, 0)
      | some (b, r3) =>
        match r3 with
        | '.' :: r4 =>
          match scanInt r4 with
          | none => (a, b, 0)
          | some (c, _) => (a, b, c)
        | _ => (a, b, 0)
    | _ => (a, 0, 0)

/-- `struct UnityVersion`: `{major, minor, patch, type, build}` with
defaults `(0, 0, 0, 'f', 0)` (`core_logic.h:26-28`). -/
structure UnityVersion where
  major : Int
  minor : Int
  patch : Int
  type : Char
  build : Int
deriving DecidableEq, Repr

/-- The `UnityVersion(version_str)` constructor (`core_logic.cpp:48-56`):
an empty string keeps all defaults; otherwise `sscanf` fills the numeric
triple, and if any of `a`, `b`, `f`, `p` occurs in the string, the first
such character becomes `type` and `std::stoi` of everything after it
becomes `build` (`.error` models the uncaught `std::stoi` exception). -/
def parseUnityVersion (s : String) : Except Unit UnityVersion :=
  if s = "" then .ok ⟨0, 0, 0, 'f', 0⟩
  else
    let cs := s.data
    let m := sscanf3 cs
    match cs.findIdx? (fun c => c = 'a' ∨ c = 'b' ∨ c = 'f' ∨ c = 'p') with
    | none => .ok ⟨m.1, m.2.1, m.2.2, 'f', 0⟩
    | some i =>
      match cppStoi ⟨cs.drop (i + 1)⟩ with
      | none => .error ()
      | some b => .ok ⟨m.1, m.2.1, m.2.2, (cs.drop i).headD 'f', b⟩

/-- `UnityVersion::operator>` (`core_logic.cpp:58-64`): lexicographic on the
5-tuple `(major, minor, patch, type, build)`, `type` compared by character
code. -/
def unityGT (x y : UnityVersion) : Bool :=
  if x.major ≠ y.major then y.major < x.major
  else if x.minor ≠ y.minor then y.minor < x.minor
  else if x.patch ≠ y.patch then y.patch < x.patch
  else if x.type ≠ y.type then y.type < x.type
  else y.build < x.build

/-- The spec's host version comparator, written from its words (§3 of the
spec): "lexicographic comparison of the 5-tuple
`(major, minor, patch, releaseType, buildNumber)` in that priority order,
comparing `releaseType` by character code" — the first strict difference
decides, equal components fall through to the next. -/
def specHostTagGt (x y : UnityVersion) : Bool :=
  if y.major < x.major then true
  else if x.major < y.major then false
  else if y.minor < x.minor then true
  else if x.minor < y.minor then false
  else if y.patch < x.patch then true
  else if x.patch < y.patch then false
  else if y.type.toNat < x.type.toNat then true
  else if x.type.toNat < y.type.toNat then false
  else decide (y.build < x.build)

/-! ## The manifest installer

`MRTKToolCore::installPackagesToProject` (`core_logic.cpp:175-245`).  The
file system is modelled by the pieces of state the function touches: the
`.tgz` artifacts in the working directory, the project's
`Packages/MixedReality` directory, the `dependencies` object of the
project's `Packages/manifest.json` (`none` = the file does not exist;
`nlohmann::json` objects are key-sorted maps), and the host version string
read from `ProjectSettings/ProjectVersion.txt` (`""` = it could not be
determined). -/

structure FS where
  cwdTgz : List String
  projectMR : Option (List String)
  manifest : Option (List (String × String))
  hostStr : String
deriving DecidableEq, Repr

/-- Outcome of `installPackagesToProject`: the manifest file is missing
(`cerr` + early return), an uncaught `std::stoi` exception from the
`UnityVersion` constructor, or normal completion. -/
inductive InstallRes where
  | manifestMissing
  | verErr
  | instOk
deriving DecidableEq, Repr

/-- `filename.substr(0, filename.find_last_of('-'))`: everything before the
last `-` (the whole string if there is none). -/
def beforeLastDash (s : String) : String :=
  match s.data.reverse.dropWhile (· ≠ '-') with
  | [] => s
  | _ :: t => ⟨t.reverse⟩

/-- The loop over the installed `MixedReality` directory
(`core_logic.cpp:204-214`): each artifact writes
`dependencies[<name before last '-'>] = "file:MixedReality/<filename>"`. -/
def installFileDeps (staged : List String) (m : List (String × String)) :
    List (String × String) :=
  staged.foldl
    (fun acc filename =>
      mapSet acc (beforeLastDash filename) ("file:MixedReality/" ++ filename)) m

/-- The fixed pin for the Microsoft OpenXR runtime package
(`core_logic.cpp:220-222`). -/
def installMicrosoftPin (oxr : List String) (m : List (String × String)) :
    List (String × String) :=
  if oxr.contains "com.microsoft.mixedreality.openxr" then
    mapSet m "com.microsoft.mixedreality.openxr" "1.11.2"
  else m

/-- The manifest state just before the Meta OpenXR tier decision: file
entries for every staged artifact, then the fixed Microsoft pin. -/
def installBase (oxr staged : List String) (m : List (String × String)) :
    List (String × String) :=
  installMicrosoftPin oxr (installFileDeps staged m)

/-- `MRTKToolCore::installPackagesToProject` (`core_logic.cpp:175-245`):
moves every working-directory `.tgz` into a `MixedReality` staging folder
and that folder wholesale (overwriting) into the project's `Packages`
directory; aborts if `Packages/manifest.json` is absent; otherwise writes a
`file:` dependency per installed artifact, the fixed Microsoft OpenXR pin
when selected, and — when the Meta OpenXR package is selected — a pin for
`com.unity.xr.meta-openxr` tiered on the project's Unity version (`2.2.0`
strictly above `6000.0.0`, else `1.0.4` strictly above `2022.3.0f1`, else
no entry; no entry either when the version string is unknown). -/
def installPackagesToProject (oxr : List String) (fs : FS) : FS × InstallRes :=
  let staged := fs.cwdTgz
  let fs1 : FS := { fs with cwdTgz := [], projectMR := some staged }
  match fs.manifest with
  | none => (fs1, .manifestMissing)
  | some manifestJson =>
    let m2 := installBase oxr staged manifestJson
    if oxr.contains "com.unity.xr.meta-openxr" then
      if fs.hostStr ≠ "" then
        match parseUnityVersion fs.hostStr with
        | .error _ => (fs1, .verErr)
        | .ok currentVersion =>
          match parseUnityVersion "6000.0.0" with
          | .error _ => (fs1, .verErr)
          | .ok u6 =>
            if unityGT currentVersion u6 then
              ({ fs1 with manifest := some (mapSet m2 "com.unity.xr.meta-openxr" "2.2.0") }, .instOk)
            else
              match parseUnityVersion "2022.3.0f1" with
              | .error _ => (fs1, .verErr)
              | .ok u2022 =>
                if unityGT currentVersion u2022 then
                  ({ fs1 with manifest := some (mapSet m2 "com.unity.xr.meta-openxr" "1.0.4") }, .instOk)
                else ({ fs1 with manifest := some m2 }, .instOk)
      else ({ fs1 with manifest := some m2 }, .instOk)
    else ({ fs1 with manifest := some m2 }, .instOk)

/-! ## Asset-name parsing

`MRTKToolCore::extractComponentInfo` (`core_logic.cpp:393-400`) applies
`std::regex_search` with the ECMAScript pattern
`org\.mixedrealitytoolkit\.(.+?)-([0-9]+\.[0-9]+\.[0-9]+(?:-pre\.[0-9]+)?)\.tgz`.
The embedding implements this engine's behaviour directly: `regex_search`
finds the leftmost position at which a match starts; the match necessarily
begins with the literal `org.mixedrealitytoolkit.`; the non-greedy `(.+?)`
group takes the fewest (non-newline) characters that let the rest of the
pattern match; each `[0-9]+` is a maximal digit run (it is followed in the
pattern by a non-digit, so backtracking cannot shorten it); and the optional
`(?:-pre\.[0-9]+)?` is tried first, falling back to the empty alternative. -/

/-- Match `[0-9]+\.[0-9]+\.[0-9]+(?:-pre\.[0-9]+)?\.tgz` at the head of the
input; returns the characters captured by the version group and the rest of
the input after `.tgz`. -/
def matchVerTgz (cs : List Char) : Option (List Char × List Char) :=
  let d1 := cs.takeWhile Char.isDigit
  let r1 := cs.dropWhile Char.isDigit
  if d1.isEmpty then none
  else
    match r1 with
    | '.' :: r2 =>
      let d2 := r2.takeWhile Char.isDigit
      let r3 := r2.dropWhile Char.isDigit
      if d2.isEmpty then none
      else
        match r3 with
        | '.' :: r4 =>
          let d3 := r4.takeWhile Char.isDigit
          let r5 := r4.dropWhile Char.isDigit
          if d3.isEmpty then none
          else
            let withPre : Option (List Char × List Char) :=
              match r5 with
              | '-' :: 'p' :: 'r' :: 'e' :: '.' :: r6 =>
                let d4 := r6.takeWhile Char.isDigit
                let r7 := r6.dropWhile Char.isDigit
                if d4.isEmpty then none
                else
                  match r7 with
                  | '.' :: 't' :: 'g' :: 'z' :: r8 =>
                    some (d1 ++ '.' :: d2 ++ '.' :: d3 ++
                      '-' :: 'p' :: 'r' :: 'e' :: '.' :: d4, r8)
                  | _ => none
              | _ => none
            match withPre with
            | some res => some res
            | none =>
              match r5 with
              | '.' :: 't' :: 'g' :: 'z' :: r8 =>
                some (d1 ++ '.' :: d2 ++ '.' :: d3, r8)
              | _ => none
        | _ => none
    | _ => none

/-- The ECMAScript line terminators a byte string can hold: `.` in the
pattern matches any character except these (both libc++ and libstdc++
treat `\\r` as a line terminator too, not only `\\n`). -/
def cIsLineTerm (c : Char) : Bool := c = '\n' || c = '\r'

/-- The non-greedy `(.+?)-` group: extend the identifier one
(non-line-terminator) character at a time, stopping at the first split
where a `-` followed by `matchVerTgz` completes the pattern. -/
def idScan (acc : List Char) : List Char → Option (String × String)
  | [] => none
  | c :: rest =>
    if cIsLineTerm c then none
    else
      let acc' := acc ++ [c]
      match rest with
      | '-' :: r2 =>
        match matchVerTgz r2 with
        | some (ver, _) => some (⟨acc'⟩, ⟨ver⟩)
        | none => idScan acc' rest
      | _ => idScan acc' rest

/-- Attempt a match of the whole pattern starting exactly at the head of
the input: the literal prefix, then the non-greedy identifier and version. -/
def tryMatchAt (cs : List Char) : Option (String × String) :=
  if "org.mixedrealitytoolkit.".data.isPrefixOf cs then
    idScan [] (cs.drop 24)
  else none

/-- `std::regex_search`: the match starting at the leftmost possible
position. -/
def regexSearchECI : List Char → Option (String × String)
  | [] => none
  | c :: t =>
    match tryMatchAt (c :: t) with
    | some r => some r
    | none => regexSearchECI t

/-- `MRTKToolCore::extractComponentInfo(fileName)` (`core_logic.cpp:393-400`):
the `(identifier, version)` capture groups of the regex search, or
`("", "")` when nothing in the name matches. -/
def extractComponentInfo (fileName : String) : String × String :=
  (regexSearchECI fileName.data).getD ("", "")

/-- A non-empty all-digit character run (`[0-9]+`). -/
def AllDigits (l : List Char) : Prop := l ≠ [] ∧ ∀ c ∈ l, c.isDigit = true

/-- The version grammar of the spec: `\d+\.\d+\.\d+(-pre\.\d+)?`. -/
def VerGram (ver : List Char) : Prop :=
  ∃ d1 d2 d3 : List Char, AllDigits d1 ∧ AllDigits d2 ∧ AllDigits d3 ∧
    (ver = d1 ++ '.' :: d2 ++ '.' :: d3 ∨
     ∃ d4 : List Char, AllDigits d4 ∧
       ver = d1 ++ '.' :: d2 ++ '.' :: d3 ++ '-' :: 'p' :: 'r' :: 'e' :: '.' :: d4)

/-- Some substring of the name matches the filename grammar
`org.mixedrealitytoolkit.<identifier>-<version>.tgz` (the semantics of
`std::regex_search`; the identifier is any non-empty run of characters
none of which is a line terminator — `.` rejects both `\\n` and `\\r`). -/
def SubMatch (s : String) : Prop :=
  ∃ pre id ver post : List Char,
    s.data = pre ++ "org.mixedrealitytoolkit.".data ++ id ++
      '-' :: ver ++ '.' :: 't' :: 'g' :: 'z' :: post ∧
    id ≠ [] ∧ (∀ c ∈ id, cIsLineTerm c = false) ∧ VerGram ver

/-- The whole name matches the filename grammar
`org.mixedrealitytoolkit.<identifier>-<version>.tgz`. -/
def FullMatch (s : String) : Prop :=
  ∃ id ver : List Char,
    s.data = "org.mixedrealitytoolkit.".data ++ id ++
      '-' :: ver ++ '.' :: 't' :: 'g' :: 'z' :: [] ∧
    id ≠ [] ∧ VerGram ver

/-! ## The specification's reference component-version ordering

§4.1 of the spec, written from its words; compared against the embedded
`isNewerVersion` (the refinement claim C2). -/

/-- Spec step 1: "Compare main sequences element-wise as integers, left to
right; first difference decides." -/
def specCmpMain : List Nat → List Nat → Option Bool
  | o :: os, n :: ns =>
    if o < n then some true
    else if n < o then some false
    else specCmpMain os ns
  | _, _ => none

/-- Spec step 4, one element pair: "if both elements parse as integers,
compare numerically, else compare as strings". -/
def specCmpTag : List String → List String → Option Bool
  | o :: os, n :: ns =>
    if tagElemIsNum o && tagElemIsNum n then
      if digitsToNat o.data < digitsToNat n.data then some true
      else if digitsToNat n.data < digitsToNat o.data then some false
      else specCmpTag os ns
    else
      if strGt n o then some true
      else if strGt o n then some false
      else specCmpTag os ns
  | _, _ => none

/-- The reference ordering of spec §4.1 on parsed versions (main sequence
plus optional pre-release tag): `true` iff the second is strictly newer. -/
def specNewer (m1 : List Nat) (t1 : Option (List String))
    (m2 : List Nat) (t2 : Option (List String)) : Bool :=
  match specCmpMain m1 m2 with
  | some b => b
  | none =>
    if m1.length < m2.length then true
    else if m2.length < m1.length then false
    else
      match t1, t2 with
      | some _, none => true
      | none, some _ => false
      | none, none => false
      | some l1, some l2 =>
        match specCmpTag l1 l2 with
        | some b => b
        | none => l1.length < l2.length

/-- Parse a version string the way the spec describes: split at the first
`-` into a dotted-integer main sequence (every element a non-empty digit
run) and an optional `.`-split pre-release tag.  `none` when the main
sequence is not made of integers — such strings are not well-formed. -/
def specParseVersion (s : String) :
    Option (List Nat × Option (List String)) :=
  let mainTokens := cppSplit '.' (mainPart s).data
  if mainTokens.all (fun t => !t.isEmpty && t.data.all Char.isDigit) then
    some (mainTokens.map (fun t => digitsToNat t.data),
      if hasTag s then some (cppSplit '.' (tagPart s).data) else none)
  else none

/-- Every numeral the C++ comparator feeds to `std::stoi` for this version
string fits in a 32-bit `int` (main-sequence elements and all-digit tag
elements). -/
def versionBounded (s : String) : Bool :=
  (cppSplit '.' (mainPart s).data).all
    (fun t => digitsToNat t.data ≤ 2147483647) &&
  (cppSplit '.' (tagPart s).data).all
    (fun t => !tagElemIsNum t || digitsToNat t.data ≤ 2147483647)

/-! ## Sort keys for grammar-shaped versions

Versions of the filename grammar `\d+\.\d+\.\d+(-pre\.\d+)?` (the shape of
every catalog version) compare exactly like the lexicographic order on a
5-tuple of naturals; this key order drives the results about the in-place
catalog sort in `resolveDependencies`. -/

/-- Executable check that a version string has the filename-grammar shape
`\d+\.\d+\.\d+(-pre\.\d+)?`. -/
def verGramB (cs : List Char) : Bool :=
  let d1 := cs.takeWhile Char.isDigit
  let r1 := cs.dropWhile Char.isDigit
  !d1.isEmpty &&
    match r1 with
    | '.' :: r2 =>
      let d2 := r2.takeWhile Char.isDigit
      let r3 := r2.dropWhile Char.isDigit
      !d2.isEmpty &&
        match r3 with
        | '.' :: r4 =>
          let d3 := r4.takeWhile Char.isDigit
          let r5 := r4.dropWhile Char.isDigit
          !d3.isEmpty &&
            match r5 with
            | [] => true
            | '-' :: 'p' :: 'r' :: 'e' :: '.' :: r6 =>
              let d4 := r6.takeWhile Char.isDigit
              !d4.isEmpty && (r6.dropWhile Char.isDigit).isEmpty
            | _ => false
        | _ => false
    | _ => false

/-- A version string the engine can sort safely: filename-grammar shape
with `int`-ranged numerals. -/
def wfVersion (s : String) : Bool := verGramB s.data && versionBounded s

/-- The sort key of a grammar-shaped version:
`(major, minor, patch, 1 if stable / 0 if pre-release, pre number)`. -/
def vkey (s : String) : Nat × Nat × Nat × Nat × Nat :=
  let cs := s.data
  let d1 := cs.takeWhile Char.isDigit
  let r2 := (cs.dropWhile Char.isDigit).drop 1
  let d2 := r2.takeWhile Char.isDigit
  let r4 := (r2.dropWhile Char.isDigit).drop 1
  let d3 := r4.takeWhile Char.isDigit
  let r5 := r4.dropWhile Char.isDigit
  (digitsToNat d1, digitsToNat d2, digitsToNat d3,
   if r5.isEmpty then 1 else 0, digitsToNat (r5.drop 5))

/-- Strict lexicographic order on the 5-tuple sort keys. -/
def kLt : Nat × Nat × Nat × Nat × Nat → Nat × Nat × Nat × Nat × Nat → Bool
  | (a1, b1, c1, d1, e1), (a2, b2, c2, d2, e2) =>
    if a1 ≠ a2 then a1 < a2
    else if b1 ≠ b2 then b1 < b2
    else if c1 ≠ c2 then c1 < c2
    else if d1 ≠ d2 then d1 < d2
    else e1 < e2

/-- Pure insertion step by sort key (the shape `insertSortedE` takes on
well-formed versions). -/
def insertK (x : String) : List String → List String
  | [] => [x]
  | y :: t => if kLt (vkey y) (vkey x) then y :: insertK x t else x :: y :: t

/-- Pure insertion sort by sort key (the shape `sortE isNewerVersion` takes
on well-formed versions). -/
def isortK : List String → List String
  | [] => []
  | x :: t => insertK x (isortK t)

/-- Adjacent elements of the sort output never strictly decrease. -/
def KChain (l : List String) : Prop :=
  l.Chain' fun a b => kLt (vkey b) (vkey a) = false

/-- Every version list in the catalog is well-formed (true of every catalog
the Catalog Fetcher builds, since its versions come from the filename
grammar; `std::sort`'s strict-weak-order precondition needs this). -/
def CatalogWF (cat : List (String × List String)) : Prop :=
  ∀ p ∈ cat, ∀ v ∈ p.2, wfVersion v = true

/-- Relation between a catalog and a partially re-sorted copy: every version
list is either untouched or sorted. -/
def catRel (cat cat' : List (String × List String)) : Prop :=
  ∀ id, mapGet cat' id = mapGet cat id ∨
    mapGet cat' id = (mapGet cat id).map isortK

/-! ## Ingredients for the walk theorems -/

/-- The versions with which the recursive walk was invoked for a given
identifier during a run, read off the ghost trace. -/
def invokedFor (t : List (String × String)) (c : String) : List String :=
  (t.filter (fun p => p.1 = c)).map (·.2)

/-- The identifier/version pair a declared dependency turns into, `none`
when the walk skips it (`core_logic.cpp:450-458`). -/
def childPair (p : String × String) : Option (String × String) :=
  if strStartsWith p.1 "com.unity." then none
  else if strStartsWith p.1 "org.mixedrealitytoolkit" then
    some (strDrop p.1 24, p.2)
  else some p

/-- All identifier/version pairs the walk can ever be invoked with: the
roots plus every declared dependency (after skip/strip), over the whole
dependency table. -/
def reqPairs (deps : DepsMap) (roots : List (String × String)) :
    List (String × String) :=
  roots ++ deps.foldr (fun e acc => e.2.filterMap childPair ++ acc) []

/-- The dependency table with every externally-managed (`com.unity.`)
declared dependency removed. -/
def filterDepsMap (deps : DepsMap) : DepsMap :=
  deps.map (fun e => (e.1, e.2.filter (fun p => !strStartsWith p.1 "com.unity.")))

/-- The `component + "-" + version` keys of the artifacts the dependency
table knows (the only nodes whose processing can recurse). -/
def domKeys (deps : DepsMap) : List String :=
  deps.map (fun e => e.1.1 ++ "-" ++ e.1.2)

/-- Number of knowable keys not yet processed: the termination measure of
the walk. -/
def unprocCount (deps : DepsMap) (s : RState) : Nat :=
  ((domKeys deps).toFinset \ s.processed.toFinset).card

/-- After a successful call, the processed set has only grown and the ghost
trace has only been appended to; a recorded requirement key stays recorded. -/
def StateExt (s s' : RState) : Prop :=
  (∀ k ∈ s.processed, k ∈ s'.processed) ∧
  (∃ t, s'.calls = s.calls ++ t) ∧
  (∀ c, (mapGet s.required c).isSome → (mapGet s'.required c).isSome)

/-- The comparator is transitive on the identifier/version pairs of `U`
sharing an identifier.  (Not true of arbitrary pairs: mixing numeric and
non-numeric pre-release tag elements makes `isNewerVersion` cyclic.) -/
def TransOn (U : List (String × String)) : Prop :=
  ∀ p ∈ U, ∀ q ∈ U, ∀ r ∈ U, p.1 = q.1 → q.1 = r.1 →
    isNewerVersion p.2 q.2 = .ok true → isNewerVersion q.2 r.2 = .ok true →
    isNewerVersion p.2 r.2 = .ok true

/-- Distinct pairs of `U` have distinct `identifier + "-" + version` keys.
(Not automatic: the key is built by plain concatenation, so e.g.
`("a-b", "c")` and `("a", "b-c")` collide.) -/
def KeyInj (U : List (String × String)) : Prop :=
  ∀ p ∈ U, ∀ q ∈ U, p.1 ++ "-" ++ p.2 = q.1 ++ "-" ++ q.2 → p = q

/-- The inductive invariant of the walk for the newest-wins property,
relative to the universe `U` of requestable pairs:
every trace entry is in `U`; every recorded requirement was invoked and no
invoked version for its identifier is strictly newer; every processed key is
the key of some trace entry; identifiers without a requirement were never
invoked; and the requirement map has pairwise-distinct keys. -/
def WalkInv (U : List (String × String)) (s : RState) : Prop :=
  (∀ p ∈ s.calls, p ∈ U) ∧
  (∀ c w, mapGet s.required c = some w → w ∈ invokedFor s.calls c ∧
    ∀ u ∈ invokedFor s.calls c, isNewerVersion w u ≠ .ok true) ∧
  (∀ k ∈ s.processed, ∃ p ∈ s.calls, p.1 ++ "-" ++ p.2 = k) ∧
  (∀ c, mapGet s.required c = none → invokedFor s.calls c = [])

/-! ## Utility lemmas -/

theorem mapGet_mapSet_self {α : Type} (m : List (String × α)) (k : String)
    (v : α) : mapGet (mapSet m k v) k = some v := by
  induction m with
  | nil => simp [mapSet, mapGet]
  | cons p t ih =>
    obtain ⟨k', w⟩ := p
    by_cases hk : k = k'
    · simp [mapSet, hk, mapGet]
    · by_cases hlt : strLt k k' = true
      · simp [mapSet, hk, hlt, mapGet]
      · simp [mapSet, hk, hlt, mapGet, ih]

theorem mapGet_mapSet_ne {α : Type} (m : List (String × α)) (k : String)
    (v : α) (k' : String) (h : k' ≠ k) :
    mapGet (mapSet m k v) k' = mapGet m k' := by
  induction m with
  | nil => simp [mapSet, mapGet, h]
  | cons p t ih =>
    obtain ⟨k0, w⟩ := p
    by_cases hk : k = k0
    · subst hk
      simp [mapSet, mapGet, h]
    · by_cases hlt : strLt k k0 = true
      · simp [mapSet, hk, hlt, mapGet, h]
      · by_cases hk' : k' = k0
        · simp [mapSet, hk, hlt, mapGet, hk']
        · simp [mapSet, hk, hlt, mapGet, hk', ih]

theorem mem_mapSet {α : Type} (m : List (String × α)) (k : String) (v : α)
    (p : String × α) (h : p ∈ mapSet m k v) : p = (k, v) ∨ p ∈ m := by
  induction m with
  | nil => simpa [mapSet] using h
  | cons q t ih =>
    obtain ⟨k0, w⟩ := q
    by_cases hk : k = k0
    · subst hk
      simp [mapSet] at h
      rcases h with h | h
      · left; simp [h]
      · right; simp [h]
    · by_cases hlt : strLt k k0 = true
      · simp [mapSet, hk, hlt] at h
        rcases h with h | h | h
        · left; simp [h]
        · right; simp [h]
        · right; simp [h]
      · simp [mapSet, hk, hlt] at h
        rcases h with h | h
        · right; simp [h]
        · rcases ih h with h' | h'
          · left; exact h'
          · right; simp [h']

theorem mapGet_mem {α : Type} (m : List (String × α)) (k : String) (v : α)
    (h : mapGet m k = some v) : (k, v) ∈ m := by
  induction m with
  | nil => simp [mapGet] at h
  | cons q t ih =>
    obtain ⟨k0, w⟩ := q
    by_cases hk : k = k0
    · subst hk
      simp [mapGet] at h
      simp [h]
    · simp [mapGet, hk] at h
      simp [ih h]

theorem mem_setIns (l : List String) (x y : String) :
    y ∈ setIns l x ↔ y = x ∨ y ∈ l := by
  induction l with
  | nil => simp [setIns]
  | cons z t ih =>
    by_cases hx : x = z
    · subst hx
      simp [setIns]
      try tauto
    · by_cases hlt : strLt x z = true
      · simp [setIns, hx, hlt]
        try tauto
      · simp [setIns, hx, hlt, ih]
        try tauto

theorem char_digit_bounds (c : Char) (h : c.isDigit = true) :
    48 ≤ c.toNat ∧ c.toNat ≤ 57 := by
  simpa [Char.isDigit] using h

theorem digit_ne_of_not_digit (c d : Char) (h : c.isDigit = true)
    (hd : d.isDigit = false) : c ≠ d := by
  intro he
  subst he
  rw [h] at hd
  cases hd

theorem cIsSpace_eq_false_of_digit (c : Char) (h : c.isDigit = true) :
    cIsSpace c = false := by
  obtain ⟨h1, h2⟩ := char_digit_bounds c h
  have hne : c ≠ ' ' := by
    intro he
    subst he
    revert h1
    decide
  simp [cIsSpace, hne]
  omega

theorem takeWhile_all {α : Type} (p : α → Bool) (l : List α)
    (h : ∀ c ∈ l, p c = true) : l.takeWhile p = l := by
  induction l with
  | nil => rfl
  | cons c t ih =>
    rw [List.takeWhile_cons, if_pos (h c (by simp)),
      ih fun x hx => h x (by simp [hx])]

theorem dropWhile_all {α : Type} (p : α → Bool) (l : List α)
    (h : ∀ c ∈ l, p c = true) : l.dropWhile p = [] := by
  induction l with
  | nil => rfl
  | cons c t ih =>
    rw [List.dropWhile_cons, if_pos (h c (by simp))]
    exact ih fun x hx => h x (by simp [hx])

theorem takeWhile_append_stop {α : Type} (p : α → Bool) (l : List α) (x : α)
    (r : List α) (hl : ∀ c ∈ l, p c = true) (hx : p x = false) :
    (l ++ x :: r).takeWhile p = l := by
  induction l with
  | nil => simp [List.takeWhile_cons, hx]
  | cons c t ih =>
    rw [List.cons_append, List.takeWhile_cons, if_pos (hl c (by simp)),
      ih fun y hy => hl y (by simp [hy])]

theorem dropWhile_append_stop {α : Type} (p : α → Bool) (l : List α) (x : α)
    (r : List α) (hl : ∀ c ∈ l, p c = true) (hx : p x = false) :
    (l ++ x :: r).dropWhile p = x :: r := by
  induction l with
  | nil => simp [List.dropWhile_cons, hx]
  | cons c t ih =>
    rw [List.cons_append, List.dropWhile_cons, if_pos (hl c (by simp))]
    exact ih fun y hy => hl y (by simp [hy])

theorem cppSplitAux_all (d : Char) (l : List Char) (hl : ∀ c ∈ l, c ≠ d) :
    ∀ acc, cppSplitAux d acc l = [⟨acc.reverse ++ l⟩] := by
  induction l with
  | nil => intro acc; simp [cppSplitAux]
  | cons c t ih =>
    intro acc
    have hc : c ≠ d := hl c (by simp)
    have hstep : cppSplitAux d acc (c :: t) = cppSplitAux d (c :: acc) t := by
      cases t with
      | nil => simp [cppSplitAux, hc]
      | cons c' t' => simp [cppSplitAux, hc]
    rw [hstep, ih (fun x hx => hl x (by simp [hx])) (c :: acc)]
    simp

theorem cppSplit_all (d : Char) (l : List Char) (h0 : l ≠ [])
    (hl : ∀ c ∈ l, c ≠ d) : cppSplit d l = [⟨l⟩] := by
  cases l with
  | nil => exact absurd rfl h0
  | cons c t =>
    show cppSplitAux d [] (c :: t) = _
    rw [cppSplitAux_all d (c :: t) hl []]
    simp

theorem cppSplitAux_append (d : Char) (l r : List Char)
    (hl : ∀ c ∈ l, c ≠ d) :
    ∀ acc, cppSplitAux d acc (l ++ d :: r) =
      (⟨acc.reverse ++ l⟩ : String) :: cppSplit d r := by
  induction l with
  | nil =>
    intro acc
    cases r with
    | nil => simp [cppSplitAux, cppSplit]
    | cons c t => simp [cppSplitAux, cppSplit]
  | cons c t ih =>
    intro acc
    have hc : c ≠ d := hl c (by simp)
    have hih := ih (fun x hx => hl x (by simp [hx])) (c :: acc)
    rw [List.cons_append]
    cases ht : t ++ d :: r with
    | nil => simp at ht
    | cons x xs =>
      have hone : cppSplitAux d acc (c :: x :: xs) =
          cppSplitAux d (c :: acc) (x :: xs) := by
        simp [cppSplitAux, hc]
      rw [ht] at hih
      rw [hone, hih]
      simp

theorem cppSplit_append (d : Char) (l r : List Char)
    (hl : ∀ c ∈ l, c ≠ d) :
    cppSplit d (l ++ d :: r) = (⟨l⟩ : String) :: cppSplit d r := by
  cases l with
  | nil =>
    show cppSplitAux d [] ([] ++ d :: r) = _
    rw [cppSplitAux_append d [] r (by simp) []]
    simp
  | cons c t =>
    show cppSplitAux d [] ((c :: t) ++ d :: r) = _
    rw [cppSplitAux_append d (c :: t) r hl []]
    simp

theorem cppStoi_digits (t : String) (h1 : t.data ≠ [])
    (h2 : ∀ c ∈ t.data, c.isDigit = true)
    (h3 : digitsToNat t.data ≤ 2147483647) :
    cppStoi t = some ((digitsToNat t.data : Nat) : Int) := by
  obtain ⟨l⟩ := t
  cases l with
  | nil => exact absurd rfl h1
  | cons c rest =>
  simp only [String.data] at h1 h2 h3 ⊢
  have hcd : c.isDigit = true := h2 c (by simp)
  have hdrop : (c :: rest).dropWhile cIsSpace = c :: rest := by
    simp [List.dropWhile_cons, cIsSpace_eq_false_of_digit c hcd]
  have hne1 : c ≠ '-' := digit_ne_of_not_digit c '-' hcd (by decide)
  have hne2 : c ≠ '+' := digit_ne_of_not_digit c '+' hcd (by decide)
  simp only [cppStoi, String.data, hdrop]
  have hmatch :
      (match c :: rest with
        | '-' :: t => ((true : Bool), t)
        | '+' :: t => ((false : Bool), t)
        | _ => ((false : Bool), c :: rest)) = ((false : Bool), c :: rest) := by
    split
    · next heq => rw [List.cons.injEq] at heq; exact absurd heq.1 hne1
    · next heq => rw [List.cons.injEq] at heq; exact absurd heq.1 hne2
    · rfl
  rw [hmatch]
  simp only
  rw [takeWhile_all Char.isDigit (c :: rest) h2]
  have hbound : ¬(((digitsToNat (c :: rest) : Nat) : Int) < -2147483648 ∨
      (2147483647 : Int) < ((digitsToNat (c :: rest) : Nat) : Int)) := by
    push_neg
    omega
  simp only [List.isEmpty_cons, Bool.false_eq_true, if_false, if_neg hbound]

theorem mainPart_split (m t : List Char) (hm : ∀ c ∈ m, c ≠ '-') :
    mainPart ⟨m ++ '-' :: t⟩ = ⟨m⟩ ∧ hasTag ⟨m ++ '-' :: t⟩ = true ∧
      tagPart ⟨m ++ '-' :: t⟩ = ⟨t⟩ := by
  refine ⟨?_, ?_, ?_⟩
  · show (⟨(m ++ '-' :: t).takeWhile (· ≠ '-')⟩ : String) = ⟨m⟩
    rw [takeWhile_append_stop _ m '-' t (fun c hc => by simp [hm c hc]) (by simp)]
  · show (m ++ '-' :: t).contains '-' = true
    simp
  · show (⟨((m ++ '-' :: t).dropWhile (· ≠ '-')).drop 1⟩ : String) = ⟨t⟩
    rw [dropWhile_append_stop _ m '-' t (fun c hc => by simp [hm c hc]) (by simp)]
    simp

theorem mainPart_nodash (s : String) (hm : ∀ c ∈ s.data, c ≠ '-') :
    mainPart s = s ∧ hasTag s = false ∧ tagPart s = "" := by
  refine ⟨?_, ?_, ?_⟩
  · show (⟨s.data.takeWhile (· ≠ '-')⟩ : String) = s
    rw [takeWhile_all _ s.data (fun c hc => by simp [hm c hc])]
  · show s.data.contains '-' = false
    simp only [List.contains_eq_any_beq, List.any_eq_false]
    intro c hc
    have := hm c hc
    intro he
    exact this (eq_of_beq he).symm
  · show (⟨(s.data.dropWhile (· ≠ '-')).drop 1⟩ : String) = ""
    rw [dropWhile_all _ s.data (fun c hc => by simp [hm c hc])]
    rfl

theorem string_isEmpty_false_iff (s : String) :
    s.isEmpty = false ↔ s.data ≠ [] := by
  rw [← Bool.not_eq_true, String.isEmpty_iff]
  constructor
  · intro h hd
    apply h
    obtain ⟨l⟩ := s
    simp only [String.data] at hd
    rw [hd]
  · intro h he
    apply h
    rw [he]

theorem tagElemIsNum_iff (s : String) :
    tagElemIsNum s = true ↔ s.data ≠ [] ∧ ∀ c ∈ s.data, c.isDigit = true := by
  simp only [tagElemIsNum, Bool.and_eq_true, Bool.not_eq_true',
    List.all_eq_true, string_isEmpty_false_iff]

theorem mapStoi_ok (ts : List String)
    (h : ∀ t ∈ ts, t.data ≠ [] ∧ (∀ c ∈ t.data, c.isDigit = true) ∧
      digitsToNat t.data ≤ 2147483647) :
    mapStoi ts = .ok (ts.map fun t => ((digitsToNat t.data : Nat) : Int)) := by
  induction ts with
  | nil => rfl
  | cons a l ih =>
    obtain ⟨h1, h2, h3⟩ := h a (by simp)
    have ha : stoiE a = .ok ((digitsToNat a.data : Nat) : Int) := by
      simp [stoiE, cppStoi_digits a h1 h2 h3]
    show (stoiE a >>= fun v => mapStoi l >>= fun vs => Except.ok (v :: vs)) = _
    rw [ha, ih fun t ht => h t (by simp [ht])]
    rfl

theorem mapStoi_error (ts : List String)
    (h : ∃ t ∈ ts, cppStoi t = none) : mapStoi ts = .error () := by
  induction ts with
  | nil => simp at h
  | cons a l ih =>
    show (stoiE a >>= fun v => mapStoi l >>= fun vs => Except.ok (v :: vs)) = _
    by_cases ha : cppStoi a = none
    · rw [show stoiE a = Except.error () from by simp [stoiE, ha]]
      rfl
    · obtain ⟨t, ht, hn⟩ := h
      rcases List.mem_cons.mp ht with ht' | ht'
      · exact absurd (ht' ▸ hn) ha
      · obtain ⟨v, hv⟩ : ∃ v, cppStoi a = some v := by
          cases hc : cppStoi a with
          | none => exact absurd hc ha
          | some v => exact ⟨v, rfl⟩
        rw [show stoiE a = Except.ok v from by simp [stoiE, hv],
          ih ⟨t, ht', hn⟩]
        rfl

theorem cmpMainLoop_cast (l1 l2 : List Nat) :
    cmpMainLoop (l1.map fun n : Nat => (n : Int))
      (l2.map fun n : Nat => (n : Int)) = specCmpMain l1 l2 := by
  induction l1 generalizing l2 with
  | nil => cases l2 <;> rfl
  | cons o os ih =>
    cases l2 with
    | nil => rfl
    | cons n ns =>
      simp only [List.map_cons, cmpMainLoop, specCmpMain]
      by_cases h1 : o < n
      · simp [h1]
      · by_cases h2 : n < o
        · simp [h1, h2]
        · simpa [h1, h2] using ih ns

theorem cmpTagLoop_spec (l1 l2 : List String)
    (h1 : ∀ t ∈ l1, tagElemIsNum t = true → digitsToNat t.data ≤ 2147483647)
    (h2 : ∀ t ∈ l2, tagElemIsNum t = true → digitsToNat t.data ≤ 2147483647) :
    cmpTagLoop l1 l2 = .ok (specCmpTag l1 l2) := by
  induction l1 generalizing l2 with
  | nil => cases l2 <;> rfl
  | cons o os ih =>
    cases l2 with
    | nil => rfl
    | cons n ns =>
      simp only [cmpTagLoop, specCmpTag]
      by_cases hnum : (tagElemIsNum o && tagElemIsNum n) = true
      · obtain ⟨ho, hn⟩ := Bool.and_eq_true_iff.mp hnum
        obtain ⟨ho1, ho2⟩ := (tagElemIsNum_iff o).mp ho
        obtain ⟨hn1, hn2⟩ := (tagElemIsNum_iff n).mp hn
        have hso : stoiE o = .ok ((digitsToNat o.data : Nat) : Int) := by
          simp [stoiE, cppStoi_digits o ho1 ho2 (h1 o (by simp) ho)]
        have hsn : stoiE n = .ok ((digitsToNat n.data : Nat) : Int) := by
          simp [stoiE, cppStoi_digits n hn1 hn2 (h2 n (by simp) hn)]
        rw [if_pos hnum, if_pos hnum]
        simp only [bind, Except.bind, hso, hsn]
        by_cases hc1 : digitsToNat o.data < digitsToNat n.data
        · simp [hc1]
        · by_cases hc2 : digitsToNat n.data < digitsToNat o.data
          · simp [hc1, hc2]
          · have hi1 : ¬((digitsToNat o.data : Nat) : Int) <
                ((digitsToNat n.data : Nat) : Int) := by exact_mod_cast hc1
            have hi2 : ¬((digitsToNat n.data : Nat) : Int) <
                ((digitsToNat o.data : Nat) : Int) := by exact_mod_cast hc2
            simp only [if_neg hi1, if_neg hi2, if_neg hc1, if_neg hc2]
            exact ih ns (fun t ht hb => h1 t (by simp [ht]) hb)
              (fun t ht hb => h2 t (by simp [ht]) hb)
      · rw [if_neg hnum, if_neg hnum]
        by_cases hg1 : strGt n o = true
        · simp [hg1]
        · by_cases hg2 : strGt o n = true
          · simp [hg1, hg2]
          · simp only [hg1, hg2, Bool.false_eq_true, if_false]
            exact ih ns (fun t ht hb => h1 t (by simp [ht]) hb)
              (fun t ht hb => h2 t (by simp [ht]) hb)

theorem isNewerVersion_spec (v1 v2 : String)
    (p1 p2 : List Nat × Option (List String))
    (h1 : specParseVersion v1 = some p1) (h2 : specParseVersion v2 = some p2)
    (b1 : versionBounded v1 = true) (b2 : versionBounded v2 = true) :
    isNewerVersion v1 v2 = .ok (specNewer p1.1 p1.2 p2.1 p2.2) := by
  simp only [specParseVersion] at h1 h2
  split at h1
  case isFalse => exact absurd h1 (by simp)
  case isTrue hall1 =>
  split at h2
  case isFalse => exact absurd h2 (by simp)
  case isTrue hall2 =>
  rw [Option.some.injEq] at h1 h2
  subst h1
  subst h2
  simp only [versionBounded, Bool.and_eq_true, List.all_eq_true] at b1 b2
  have helem1 : ∀ t ∈ cppSplit '.' (mainPart v1).data, t.data ≠ [] ∧
      (∀ c ∈ t.data, c.isDigit = true) ∧ digitsToNat t.data ≤ 2147483647 := by
    intro t ht
    have hn := (tagElemIsNum_iff t).mp ((List.all_eq_true.mp hall1) t ht)
    exact ⟨hn.1, hn.2, by simpa using b1.1 t ht⟩
  have helem2 : ∀ t ∈ cppSplit '.' (mainPart v2).data, t.data ≠ [] ∧
      (∀ c ∈ t.data, c.isDigit = true) ∧ digitsToNat t.data ≤ 2147483647 := by
    intro t ht
    have hn := (tagElemIsNum_iff t).mp ((List.all_eq_true.mp hall2) t ht)
    exact ⟨hn.1, hn.2, by simpa using b2.1 t ht⟩
  have hm1 := mapStoi_ok _ helem1
  have hm2 := mapStoi_ok _ helem2
  have hcast : ∀ l : List String,
      (l.map fun t => ((digitsToNat t.data : Nat) : Int)) =
        ((l.map fun t => digitsToNat t.data).map fun n : Nat => (n : Int)) := by
    intro l
    rw [List.map_map]
    rfl
  simp only [isNewerVersion, hm1, hm2, bind, Except.bind]
  rw [hcast, hcast, cmpMainLoop_cast]
  cases hmain : specCmpMain (List.map (fun t => digitsToNat t.data)
      (cppSplit '.' (mainPart v1).data))
      (List.map (fun t => digitsToNat t.data)
        (cppSplit '.' (mainPart v2).data)) with
  | some b => simp [specNewer, hmain]
  | none =>
    simp only [specNewer, hmain, List.length_map]
    by_cases hl1 : (cppSplit '.' (mainPart v1).data).length <
        (cppSplit '.' (mainPart v2).data).length
    · simp [hl1]
    · by_cases hl2 : (cppSplit '.' (mainPart v2).data).length <
          (cppSplit '.' (mainPart v1).data).length
      · simp [hl1, hl2]
      · simp only [if_neg hl1, if_neg hl2]
        cases ht1 : hasTag v1 with
        | true =>
          cases ht2 : hasTag v2 with
          | false => simp
          | true =>
            simp only [Bool.not_true, Bool.and_false, Bool.false_eq_true,
              if_false, Bool.and_true, Bool.not_false, Bool.true_and,
              Bool.and_self]
            have htag : cmpTagLoop (cppSplit '.' (tagPart v1).data)
                (cppSplit '.' (tagPart v2).data) =
                .ok (specCmpTag (cppSplit '.' (tagPart v1).data)
                  (cppSplit '.' (tagPart v2).data)) := by
              apply cmpTagLoop_spec
              · intro t ht hnum
                have := b1.2 t ht
                simp [hnum] at this
                simpa using this
              · intro t ht hnum
                have := b2.2 t ht
                simp [hnum] at this
                simpa using this
            rw [htag]
            simp only [bind, Except.bind]
            cases htg : specCmpTag (cppSplit '.' (tagPart v1).data)
                (cppSplit '.' (tagPart v2).data) with
            | some b => simp [htg]
            | none => simp [htg]
        | false =>
          cases ht2 : hasTag v2 with
          | true => simp
          | false => simp

theorem cmpMainLoop_self (l : List Int) : cmpMainLoop l l = none := by
  induction l with
  | nil => rfl
  | cons o os ih => simp [cmpMainLoop, ih]

theorem lexGtL_irrefl (l : List Char) : lexGtL l l = false := by
  induction l with
  | nil => rfl
  | cons c t ih => simp [lexGtL, ih]

theorem strGt_irrefl (s : String) : strGt s s = false := lexGtL_irrefl s.data

theorem cmpTagLoop_self (l : List String) :
    cmpTagLoop l l = .error () ∨ cmpTagLoop l l = .ok none := by
  induction l with
  | nil => right; rfl
  | cons o os ih =>
    simp only [cmpTagLoop]
    by_cases hnum : (tagElemIsNum o && tagElemIsNum o) = true
    · rw [if_pos hnum]
      cases hs : stoiE o with
      | error e =>
        left
        cases e
        simp [bind, Except.bind, hs]
      | ok v =>
        simp only [bind, Except.bind, hs, lt_irrefl, if_false]
        exact ih
    · rw [if_neg hnum]
      simp only [strGt_irrefl, Bool.false_eq_true, if_false]
      exact ih

theorem isNewerVersion_irrefl (v : String) : isNewerVersion v v ≠ .ok true := by
  simp only [isNewerVersion]
  cases hm : mapStoi (cppSplit '.' (mainPart v).data) with
  | error e =>
    cases e
    simp [bind, Except.bind]
  | ok parts =>
    simp only [bind, Except.bind]
    rw [cmpMainLoop_self]
    simp only [lt_irrefl, if_false]
    cases ht : hasTag v with
    | false => simp
    | true =>
      simp only [Bool.not_true, Bool.and_false, Bool.false_eq_true, if_false,
        Bool.and_true, Bool.true_and, Bool.not_false, Bool.and_self]
      rcases cmpTagLoop_self (cppSplit '.' (tagPart v).data) with h | h
      · rw [h]
        simp
      · rw [h]
        simp [lt_irrefl]

/-! ## Structural lemmas about the recursive walk -/

theorem resolveChildren_congr (step step' : String → String → RState → RRes RState)
    (h : ∀ c v s, step c v s = step' c v s) :
    ∀ l s, resolveChildren step l s = resolveChildren step' l s := by
  intro l
  induction l with
  | nil => intro s; rfl
  | cons p rest ih =>
    intro s
    obtain ⟨d, dv⟩ := p
    simp only [resolveChildren]
    by_cases hs : strStartsWith d "com.unity." = true
    · simp only [if_pos hs, ih]
    · simp only [if_neg hs, ← h]
      cases step (if strStartsWith d "org.mixedrealitytoolkit" then strDrop d 24 else d) dv s with
      | fuelOut => rfl
      | rerror => rfl
      | done s' => exact ih s'

theorem resolveChildren_filter (step : String → String → RState → RRes RState) :
    ∀ l s, resolveChildren step
      (l.filter fun p => !strStartsWith p.1 "com.unity.") s =
      resolveChildren step l s := by
  intro l
  induction l with
  | nil => intro s; rfl
  | cons p rest ih =>
    intro s
    obtain ⟨d, dv⟩ := p
    by_cases hs : strStartsWith d "com.unity." = true
    · simp only [List.filter_cons, hs, Bool.not_true, Bool.false_eq_true,
        if_false, resolveChildren, if_pos hs, ih]
      simp
    · simp only [List.filter_cons, hs, Bool.not_false, if_true,
        resolveChildren, if_neg hs]
      cases step (if strStartsWith d "org.mixedrealitytoolkit" then strDrop d 24 else d) dv s with
      | fuelOut => rfl
      | rerror => rfl
      | done s' => exact ih s'

theorem resolveChildren_mono_prop
    (P : RState → RState → Prop)
    (hrefl : ∀ s, P s s)
    (htrans : ∀ a b c, P a b → P b c → P a c)
    (step : String → String → RState → RRes RState)
    (hstep : ∀ c v s s', step c v s = .done s' → P s s') :
    ∀ l s s', resolveChildren step l s = .done s' → P s s' := by
  intro l
  induction l with
  | nil =>
    intro s s' h
    simp only [resolveChildren, RRes.done.injEq] at h
    exact h ▸ hrefl s
  | cons p rest ih =>
    intro s s' h
    obtain ⟨d, dv⟩ := p
    simp only [resolveChildren] at h
    by_cases hs : strStartsWith d "com.unity." = true
    · rw [if_pos hs] at h
      exact ih s s' h
    · rw [if_neg hs] at h
      cases hst : step (if strStartsWith d "org.mixedrealitytoolkit" then strDrop d 24 else d) dv s with
      | fuelOut => rw [hst] at h; cases h
      | rerror => rw [hst] at h; cases h
      | done s1 =>
        rw [hst] at h
        exact htrans s s1 s' (hstep _ _ _ _ hst) (ih s1 s' h)

theorem StateExt.refl (s : RState) : StateExt s s :=
  ⟨fun _ hk => hk, ⟨[], by simp⟩, fun _ h => h⟩

theorem StateExt.trans (a b c : RState) (h1 : StateExt a b)
    (h2 : StateExt b c) : StateExt a c := by
  obtain ⟨hp1, ⟨t1, ht1⟩, hr1⟩ := h1
  obtain ⟨hp2, ⟨t2, ht2⟩, hr2⟩ := h2
  exact ⟨fun k hk => hp2 k (hp1 k hk), ⟨t1 ++ t2, by rw [ht2, ht1, List.append_assoc]⟩,
    fun c h => hr2 c (hr1 c h)⟩

theorem resolveNode_ext : ∀ (n : Nat) (deps : DepsMap) (c v : String)
    (s s' : RState), resolveNode deps n c v s = .done s' → StateExt s s' := by
  intro n
  induction n with
  | zero => intro deps c v s s' h; cases h
  | succ m ih =>
    intro deps c v s s' h
    simp only [resolveNode] at h
    by_cases hp : (s.processed.contains (c ++ "-" ++ v)) = true
    · rw [if_pos hp] at h
      simp only [RRes.done.injEq] at h
      subst h
      exact ⟨fun k hk => hk, ⟨[(c, v)], rfl⟩, fun _ hx => hx⟩
    · rw [if_neg hp] at h
      cases hpr : (match mapGet s.required c with
        | none => Except.ok true
        | some oldV => isNewerVersion oldV v) with
      | error e => rw [hpr] at h; cases h
      | ok b =>
        rw [hpr] at h
        cases b with
        | false =>
          simp only [RRes.done.injEq] at h
          subst h
          exact ⟨fun k hk => hk, ⟨[(c, v)], rfl⟩, fun _ hx => hx⟩
        | true =>
          have hmid : StateExt s
              ⟨mapSet s.required c v, setIns s.processed (c ++ "-" ++ v),
                s.calls ++ [(c, v)]⟩ := by
            refine ⟨fun k hk => ?_, ⟨[(c, v)], rfl⟩, fun c0 hx => ?_⟩
            · exact (mem_setIns _ _ _).mpr (Or.inr hk)
            · by_cases hc0 : c0 = c
              · subst hc0
                simp [mapGet_mapSet_self]
              · rwa [mapGet_mapSet_ne _ _ _ _ hc0]
          cases hd : depsGet deps c v with
          | none =>
            rw [hd] at h
            simp only [RRes.done.injEq] at h
            exact h ▸ hmid
          | some depList =>
            rw [hd] at h
            exact StateExt.trans _ _ _ hmid
              (resolveChildren_mono_prop StateExt StateExt.refl StateExt.trans
                _ (fun c' v' s0 s0' hst => ih deps c' v' s0 s0' hst)
                depList _ s' h)

theorem resolveChildren_step_mono
    (step step' : String → String → RState → RRes RState)
    (hstep : ∀ c v s s', step c v s = .done s' → step' c v s = .done s') :
    ∀ l s s', resolveChildren step l s = .done s' →
      resolveChildren step' l s = .done s' := by
  intro l
  induction l with
  | nil => intro s s' h; exact h
  | cons p rest ih =>
    intro s s' h
    obtain ⟨d, dv⟩ := p
    simp only [resolveChildren] at h ⊢
    by_cases hs : strStartsWith d "com.unity." = true
    · rw [if_pos hs] at h ⊢
      exact ih s s' h
    · rw [if_neg hs] at h ⊢
      cases hst : step (if strStartsWith d "org.mixedrealitytoolkit" then strDrop d 24 else d) dv s with
      | fuelOut => rw [hst] at h; cases h
      | rerror => rw [hst] at h; cases h
      | done s1 =>
        rw [hst] at h
        rw [hstep _ _ _ _ hst]
        exact ih s1 s' h

theorem resolveNode_fuel_succ : ∀ (n : Nat) (deps : DepsMap) (c v : String)
    (s s' : RState), resolveNode deps n c v s = .done s' →
      resolveNode deps (n + 1) c v s = .done s' := by
  intro n
  induction n with
  | zero => intro deps c v s s' h; cases h
  | succ m ih =>
    intro deps c v s s' h
    simp only [resolveNode] at h ⊢
    by_cases hp : (s.processed.contains (c ++ "-" ++ v)) = true
    · rw [if_pos hp] at h ⊢
      exact h
    · rw [if_neg hp] at h ⊢
      cases hpr : (match mapGet s.required c with
        | none => Except.ok true
        | some oldV => isNewerVersion oldV v) with
      | error e => rw [hpr] at h; cases h
      | ok b =>
        rw [hpr] at h
        cases b with
        | false => exact h
        | true =>
          cases hd : depsGet deps c v with
          | none => rw [hd] at h; exact h
          | some depList =>
            rw [hd] at h
            exact resolveChildren_step_mono _ _
              (fun c' v' s0 s0' hst => ih deps c' v' s0 s0' hst) depList _ s' h

theorem resolveNode_fuel_le (n m : Nat) (hnm : n ≤ m) (deps : DepsMap)
    (c v : String) (s s' : RState) (h : resolveNode deps n c v s = .done s') :
    resolveNode deps m c v s = .done s' := by
  induction m with
  | zero =>
    have : n = 0 := Nat.le_zero.mp hnm
    exact this ▸ h
  | succ k ih =>
    rcases Nat.lt_or_ge n (k + 1) with hlt | hge
    · exact resolveNode_fuel_succ k deps c v s s' (ih (Nat.lt_succ_iff.mp hlt))
    · have : n = k + 1 := Nat.le_antisymm hnm hge
      exact this ▸ h

theorem resolveRoots_fuel_le (n m : Nat) (hnm : n ≤ m) (deps : DepsMap) :
    ∀ (l : List (String × String)) (s s' : RState),
      resolveRoots deps n l s = .done s' → resolveRoots deps m l s = .done s' := by
  intro l
  induction l with
  | nil => intro s s' h; exact h
  | cons p rest ih =>
    intro s s' h
    obtain ⟨name, version⟩ := p
    simp only [resolveRoots] at h ⊢
    cases hst : resolveNode deps n name version s with
    | fuelOut => rw [hst] at h; cases h
    | rerror => rw [hst] at h; cases h
    | done s1 =>
      rw [hst] at h
      rw [resolveNode_fuel_le n m hnm deps name version s s1 hst]
      exact ih s1 s' h

theorem depsGet_some_key_mem (deps : DepsMap) (c v : String)
    (l : List (String × String)) (h : depsGet deps c v = some l) :
    (c ++ "-" ++ v) ∈ domKeys deps := by
  induction deps with
  | nil => cases h
  | cons e t ih =>
    obtain ⟨k, dl⟩ := e
    simp only [depsGet] at h
    by_cases hk : k.1 = c ∧ k.2 = v
    · simp only [domKeys, List.map_cons]
      rw [hk.1, hk.2]
      exact List.mem_cons_self _ _
    · rw [if_neg hk] at h
      simp only [domKeys, List.map_cons]
      right
      exact ih h

theorem unprocCount_le_of_sub (deps : DepsMap) (s s' : RState)
    (h : ∀ k ∈ s.processed, k ∈ s'.processed) :
    unprocCount deps s' ≤ unprocCount deps s := by
  apply Finset.card_le_card
  intro x hx
  simp only [Finset.mem_sdiff, List.mem_toFinset] at hx ⊢
  exact ⟨hx.1, fun hc => hx.2 (h x hc)⟩

theorem unprocCount_lt_of_insert (deps : DepsMap) (s : RState) (key : String)
    (req' : List (String × String)) (calls' : List (String × String))
    (hmem : key ∈ domKeys deps) (hnot : key ∉ s.processed) :
    unprocCount deps ⟨req', setIns s.processed key, calls'⟩ <
      unprocCount deps s := by
  have hset : (setIns s.processed key).toFinset =
      insert key s.processed.toFinset := by
    apply Finset.ext
    intro x
    simp only [List.mem_toFinset, Finset.mem_insert, mem_setIns]
  have heq : (domKeys deps).toFinset \ (setIns s.processed key).toFinset =
      ((domKeys deps).toFinset \ s.processed.toFinset).erase key := by
    rw [hset]
    apply Finset.ext
    intro x
    simp only [Finset.mem_sdiff, Finset.mem_insert, Finset.mem_erase,
      List.mem_toFinset]
    tauto
  show ((domKeys deps).toFinset \ (setIns s.processed key).toFinset).card < _
  rw [heq]
  have hkey : key ∈ (domKeys deps).toFinset \ s.processed.toFinset := by
    simp only [Finset.mem_sdiff, List.mem_toFinset]
    exact ⟨hmem, hnot⟩
  rw [Finset.card_erase_of_mem hkey]
  have hpos : 0 < ((domKeys deps).toFinset \ s.processed.toFinset).card :=
    Finset.card_pos.mpr ⟨key, hkey⟩
  simp only [unprocCount]
  omega

theorem resolveNode_no_fuelOut : ∀ (n : Nat) (deps : DepsMap) (c v : String)
    (s : RState), unprocCount deps s < n →
      resolveNode deps n c v s ≠ .fuelOut := by
  intro n
  induction n with
  | zero => intro deps c v s hlt; omega
  | succ m ih =>
    intro deps c v s hlt
    have hchildren : ∀ (l : List (String × String)) (s0 : RState),
        unprocCount deps s0 < m →
        resolveChildren (fun c' v' st => resolveNode deps m c' v' st) l s0 ≠
          .fuelOut := by
      intro l
      induction l with
      | nil => intro s0 h0 hc; cases hc
      | cons p rest ihl =>
        intro s0 h0 hc
        obtain ⟨d, dv⟩ := p
        simp only [resolveChildren] at hc
        by_cases hs : strStartsWith d "com.unity." = true
        · rw [if_pos hs] at hc
          exact ihl s0 h0 hc
        · rw [if_neg hs] at hc
          cases hst : resolveNode deps m
              (if strStartsWith d "org.mixedrealitytoolkit" then strDrop d 24 else d) dv s0 with
          | fuelOut => exact ih _ _ _ s0 h0 hst
          | rerror => rw [hst] at hc; cases hc
          | done s1 =>
            rw [hst] at hc
            have hle := unprocCount_le_of_sub deps s0 s1
              (resolveNode_ext m deps _ dv s0 s1 hst).1
            exact ihl s1 (by omega) hc
    intro h
    simp only [resolveNode] at h
    by_cases hp : (s.processed.contains (c ++ "-" ++ v)) = true
    · rw [if_pos hp] at h; cases h
    · rw [if_neg hp] at h
      cases hpr : (match mapGet s.required c with
        | none => Except.ok true
        | some oldV => isNewerVersion oldV v) with
      | error e => rw [hpr] at h; cases h
      | ok b =>
        rw [hpr] at h
        cases b with
        | false => cases h
        | true =>
          cases hd : depsGet deps c v with
          | none => rw [hd] at h; cases h
          | some depList =>
            rw [hd] at h
            have hkey : (c ++ "-" ++ v) ∈ domKeys deps :=
              depsGet_some_key_mem deps c v depList hd
            have hnotp : (c ++ "-" ++ v) ∉ s.processed := by
              intro hmem
              exact hp (List.elem_iff.mpr hmem)
            have hdec := unprocCount_lt_of_insert deps s (c ++ "-" ++ v)
              (mapSet s.required c v) (s.calls ++ [(c, v)]) hkey hnotp
            exact hchildren depList _ (by omega) h

theorem invokedFor_append_self (t : List (String × String)) (c v : String) :
    invokedFor (t ++ [(c, v)]) c = invokedFor t c ++ [v] := by
  simp [invokedFor, List.filter_append]

theorem invokedFor_append_ne (t : List (String × String)) (c v id : String)
    (h : id ≠ c) : invokedFor (t ++ [(c, v)]) id = invokedFor t id := by
  simp [invokedFor, List.filter_append, Ne.symm h]

theorem invokedFor_mem (t : List (String × String)) (c u : String)
    (h : u ∈ invokedFor t c) : (c, u) ∈ t := by
  simp only [invokedFor, List.mem_map, List.mem_filter] at h
  obtain ⟨p, ⟨hp, hc⟩, hu⟩ := h
  have : p = (c, u) := by
    obtain ⟨p1, p2⟩ := p
    simp only at hu
    simp only [decide_eq_true_eq] at hc
    rw [hc, hu]
  exact this ▸ hp

theorem lexGtL_total : ∀ a b : List Char,
    a = b ∨ lexGtL a b = true ∨ lexGtL b a = true := by
  intro a
  induction a with
  | nil =>
    intro b
    cases b with
    | nil => left; rfl
    | cons y ys => right; right; rfl
  | cons x xs ih =>
    intro b
    cases b with
    | nil => right; left; rfl
    | cons y ys =>
      rcases lt_trichotomy x y with hlt | heq | hgt
      · right; right
        simp [lexGtL, hlt]
      · subst heq
        rcases ih ys with h | h | h
        · left; rw [h]
        · right; left
          simp [lexGtL, h]
        · right; right
          simp [lexGtL, h]
      · right; left
        simp [lexGtL, hgt]

theorem lexGtL_trans : ∀ a b c : List Char, lexGtL a b = true →
    lexGtL b c = true → lexGtL a c = true := by
  intro a
  induction a with
  | nil => intro b c h1 _; cases h1
  | cons x xs ih =>
    intro b c h1 h2
    cases b with
    | nil => cases h2
    | cons y ys =>
      cases c with
      | nil => rfl
      | cons z zs =>
        simp only [lexGtL] at h1 h2 ⊢
        rcases lt_trichotomy y x with hyx | hyx | hyx
        · rcases lt_trichotomy z y with hzy | hzy | hzy
          · rw [if_pos (lt_trans hzy hyx)]
          · subst hzy
            rw [if_pos hyx]
          · rw [if_pos hzy, if_neg (lt_asymm hzy)] at h2
            cases h2
        · subst hyx
          rw [if_neg (lt_irrefl _), if_neg (lt_irrefl _)] at h1
          rcases lt_trichotomy z y with hzx | hzx | hzx
          · rw [if_pos hzx]
          · subst hzx
            rw [if_neg (lt_irrefl _), if_neg (lt_irrefl _)] at h2 ⊢
            exact ih ys zs h1 h2
          · rw [if_neg (lt_asymm hzx), if_pos hzx] at h2
            cases h2
        · rw [if_neg (lt_asymm hyx), if_pos hyx] at h1
          cases h1

theorem strLt_trans (a b c : String) (h1 : strLt a b = true)
    (h2 : strLt b c = true) : strLt a c = true :=
  lexGtL_trans c.data b.data a.data h2 h1

theorem strLt_total (a b : String) (h : a ≠ b) :
    strLt a b = true ∨ strLt b a = true := by
  rcases lexGtL_total a.data b.data with he | h1 | h1
  · refine absurd ?_ h
    obtain ⟨x⟩ := a
    obtain ⟨y⟩ := b
    have hxy : x = y := by simpa using he
    rw [hxy]
  · right; exact h1
  · left; exact h1

theorem mapSet_pairwise (m : List (String × String)) (k v : String)
    (h : m.Pairwise (fun p q => strLt p.1 q.1 = true)) :
    (mapSet m k v).Pairwise (fun p q => strLt p.1 q.1 = true) := by
  induction m with
  | nil => simp [mapSet]
  | cons q t ih =>
    obtain ⟨k0, w⟩ := q
    rw [List.pairwise_cons] at h
    obtain ⟨hhead, htail⟩ := h
    by_cases hk : k = k0
    · subst hk
      have hred : mapSet ((k, w) :: t) k v = (k, v) :: t := by simp [mapSet]
      rw [hred, List.pairwise_cons]
      exact ⟨hhead, htail⟩
    · by_cases hlt : strLt k k0 = true
      · simp only [mapSet, if_neg hk, if_pos hlt]
        rw [List.pairwise_cons]
        constructor
        · intro p hp
          rcases List.mem_cons.mp hp with hp | hp
          · rw [hp]; exact hlt
          · -- strLt k p.1 from strLt k k0 and strLt k0 p.1 needs transitivity;
            -- avoid it: compare k with p.1 directly via totality is not
            -- enough, so use transitivity of the byte order
            exact strLt_trans k k0 p.1 hlt (hhead p hp)
        · rw [List.pairwise_cons]
          exact ⟨hhead, htail⟩
      · simp only [mapSet, if_neg hk, if_neg hlt]
        rw [List.pairwise_cons]
        constructor
        · intro p hp
          rcases mem_mapSet t k v p hp with hp' | hp'
          · rw [hp']
            rcases strLt_total k k0 hk with h1 | h1
            · exact absurd h1 hlt
            · exact h1
          · exact hhead p hp'
        · exact ih htail

theorem mem_invokedFor (t : List (String × String)) (c u : String)
    (h : (c, u) ∈ t) : u ∈ invokedFor t c := by
  simp only [invokedFor, List.mem_map]
  refine ⟨(c, u), ?_, rfl⟩
  simp [List.mem_filter, h]

theorem childPair_strip (d dv : String)
    (hs : ¬strStartsWith d "com.unity." = true) :
    childPair (d, dv) =
      some (if strStartsWith d "org.mixedrealitytoolkit" then strDrop d 24 else d, dv) := by
  simp only [childPair, hs, Bool.false_eq_true, if_false]
  by_cases ho : strStartsWith d "org.mixedrealitytoolkit" = true
  · simp [ho]
  · simp [ho]

theorem resolveNode_walkInv (U : List (String × String)) (hT : TransOn U)
    (hI : KeyInj U) (deps : DepsMap)
    (hdeps : ∀ c v l, depsGet deps c v = some l →
      ∀ p ∈ l.filterMap childPair, p ∈ U) :
    ∀ (n : Nat) (c v : String) (s s' : RState), (c, v) ∈ U →
      resolveNode deps n c v s = .done s' → WalkInv U s → WalkInv U s' := by
  intro n
  induction n with
  | zero => intro c v s s' _ h _; cases h
  | succ m ih =>
    have hchildren : ∀ (l : List (String × String)) (s0 s0' : RState),
        (∀ p ∈ l.filterMap childPair, p ∈ U) →
        resolveChildren (fun c' v' st => resolveNode deps m c' v' st) l s0 =
          .done s0' → WalkInv U s0 → WalkInv U s0' := by
      intro l
      induction l with
      | nil =>
        intro s0 s0' _ h hinv
        simp only [resolveChildren, RRes.done.injEq] at h
        exact h ▸ hinv
      | cons p rest ihl =>
        intro s0 s0' hl h hinv
        obtain ⟨d, dv⟩ := p
        simp only [resolveChildren] at h
        by_cases hs : strStartsWith d "com.unity." = true
        · rw [if_pos hs] at h
          refine ihl s0 s0' ?_ h hinv
          intro q hq
          apply hl
          rw [List.filterMap_cons, show childPair (d, dv) = none from by
            simp [childPair, hs]]
          exact hq
        · rw [if_neg hs] at h
          have hcmem : (if strStartsWith d "org.mixedrealitytoolkit" then
              strDrop d 24 else d, dv) ∈ U := by
            apply hl
            rw [List.filterMap_cons, childPair_strip d dv hs]
            exact List.mem_cons_self _ _
          cases hst : resolveNode deps m
              (if strStartsWith d "org.mixedrealitytoolkit" then strDrop d 24 else d) dv s0 with
          | fuelOut => rw [hst] at h; cases h
          | rerror => rw [hst] at h; cases h
          | done s1 =>
            rw [hst] at h
            refine ihl s1 s0' ?_ h (ih _ _ s0 s1 hcmem hst hinv)
            intro q hq
            apply hl
            rw [List.filterMap_cons, childPair_strip d dv hs]
            exact List.mem_cons_of_mem _ hq
    intro c v s s' hcv h hinv
    obtain ⟨inv0, inv1, inv2, inv3⟩ := hinv
    simp only [resolveNode] at h
    by_cases hp : (s.processed.contains (c ++ "-" ++ v)) = true
    · -- visited-key early return
      rw [if_pos hp] at h
      simp only [RRes.done.injEq] at h
      subst h
      have hkeymem : (c ++ "-" ++ v) ∈ s.processed := List.elem_iff.mp hp
      obtain ⟨p, hpcalls, hpkey⟩ := inv2 _ hkeymem
      have hpeq : p = (c, v) := hI p (inv0 p hpcalls) (c, v) hcv hpkey
      have hv : v ∈ invokedFor s.calls c :=
        mem_invokedFor s.calls c v (hpeq ▸ hpcalls)
      refine ⟨?_, ?_, ?_, ?_⟩
      · intro q hq
        rcases List.mem_append.mp hq with hq | hq
        · exact inv0 q hq
        · rw [List.mem_singleton.mp hq]; exact hcv
      · intro id w hw
        by_cases hid : id = c
        · subst hid
          obtain ⟨hwm, hwall⟩ := inv1 id w hw
          rw [invokedFor_append_self]
          refine ⟨List.mem_append_left _ hwm, ?_⟩
          intro u hu
          rcases List.mem_append.mp hu with hu | hu
          · exact hwall u hu
          · rw [List.mem_singleton.mp hu]
            exact hwall v hv
        · rw [invokedFor_append_ne _ _ _ _ hid]
          exact inv1 id w hw
      · intro k hk
        obtain ⟨q, hq, hqk⟩ := inv2 k hk
        exact ⟨q, List.mem_append_left _ hq, hqk⟩
      · intro id hid
        by_cases hidc : id = c
        · subst hidc
          exact absurd (inv3 id hid ▸ hv) (List.not_mem_nil v)
        · rw [invokedFor_append_ne _ _ _ _ hidc]
          exact inv3 id hid
    · rw [if_neg hp] at h
      cases hpr : (match mapGet s.required c with
        | none => Except.ok true
        | some oldV => isNewerVersion oldV v) with
      | error e => rw [hpr] at h; cases h
      | ok b =>
        rw [hpr] at h
        cases b with
        | false =>
          -- not-older early return
          obtain ⟨w₀, hm, hcmp⟩ : ∃ w₀, mapGet s.required c = some w₀ ∧
              isNewerVersion w₀ v = .ok false := by
            cases hmm : mapGet s.required c with
            | none => rw [hmm] at hpr; simp at hpr
            | some w₀ => rw [hmm] at hpr; exact ⟨w₀, rfl, hpr⟩
          simp only [RRes.done.injEq] at h
          subst h
          refine ⟨?_, ?_, ?_, ?_⟩
          · intro q hq
            rcases List.mem_append.mp hq with hq | hq
            · exact inv0 q hq
            · rw [List.mem_singleton.mp hq]; exact hcv
          · intro id w hw
            by_cases hid : id = c
            · subst hid
              obtain ⟨hwm, hwall⟩ := inv1 id w hw
              rw [invokedFor_append_self]
              refine ⟨List.mem_append_left _ hwm, ?_⟩
              intro u hu
              rcases List.mem_append.mp hu with hu | hu
              · exact hwall u hu
              · rw [List.mem_singleton.mp hu]
                have hww : w = w₀ := by
                  rw [hm] at hw
                  exact (Option.some.inj hw).symm
                rw [hww, hcmp]
                simp
            · rw [invokedFor_append_ne _ _ _ _ hid]
              exact inv1 id w hw
          · intro k hk
            obtain ⟨q, hq, hqk⟩ := inv2 k hk
            exact ⟨q, List.mem_append_left _ hq, hqk⟩
          · intro id hid
            by_cases hidc : id = c
            · subst hidc
              rw [hid] at hm
              cases hm
            · rw [invokedFor_append_ne _ _ _ _ hidc]
              exact inv3 id hid
        | true =>
          -- record and recurse
          have hcase : mapGet s.required c = none ∨
              ∃ w₀, mapGet s.required c = some w₀ ∧
                isNewerVersion w₀ v = .ok true := by
            cases hmm : mapGet s.required c with
            | none => left; rfl
            | some w₀ =>
              right
              rw [hmm] at hpr
              exact ⟨w₀, rfl, hpr⟩
          have hinv2 : WalkInv U ⟨mapSet s.required c v,
              setIns s.processed (c ++ "-" ++ v), s.calls ++ [(c, v)]⟩ := by
            refine ⟨?_, ?_, ?_, ?_⟩
            · intro q hq
              rcases List.mem_append.mp hq with hq | hq
              · exact inv0 q hq
              · rw [List.mem_singleton.mp hq]; exact hcv
            · intro id w hw
              by_cases hid : id = c
              · subst hid
                rw [mapGet_mapSet_self] at hw
                have hwv : w = v := (Option.some.injEq _ _ ▸ hw).symm
                subst hwv
                rw [invokedFor_append_self]
                refine ⟨List.mem_append_right _ (List.mem_singleton_self _), ?_⟩
                intro u hu
                rcases List.mem_append.mp hu with hu | hu
                · rcases hcase with hm | ⟨w₀, hm, hcmp⟩
                  · rw [inv3 id hm] at hu
                    cases hu
                  · obtain ⟨hw0m, hw0all⟩ := inv1 id w₀ hm
                    intro hvu
                    have hw0U : (id, w₀) ∈ U :=
                      inv0 _ (invokedFor_mem s.calls id w₀ hw0m)
                    have huU : (id, u) ∈ U :=
                      inv0 _ (invokedFor_mem s.calls id u hu)
                    exact hw0all u hu
                      (hT (id, w₀) hw0U (id, w) hcv (id, u) huU rfl rfl hcmp hvu)
                · rw [List.mem_singleton.mp hu]
                  exact isNewerVersion_irrefl w
              · rw [mapGet_mapSet_ne _ _ _ _ hid] at hw
                rw [invokedFor_append_ne _ _ _ _ hid]
                exact inv1 id w hw
            · intro k hk
              rcases (mem_setIns _ _ _).mp hk with hk | hk
              · exact ⟨(c, v), List.mem_append_right _ (List.mem_singleton_self _), hk.symm⟩
              · obtain ⟨q, hq, hqk⟩ := inv2 k hk
                exact ⟨q, List.mem_append_left _ hq, hqk⟩
            · intro id hid
              by_cases hidc : id = c
              · subst hidc
                rw [mapGet_mapSet_self] at hid
                cases hid
              · rw [mapGet_mapSet_ne _ _ _ _ hidc] at hid
                rw [invokedFor_append_ne _ _ _ _ hidc]
                exact inv3 id hid
          cases hd : depsGet deps c v with
          | none =>
            rw [hd] at h
            simp only [RRes.done.injEq] at h
            exact h ▸ hinv2
          | some depList =>
            rw [hd] at h
            exact hchildren depList _ s' (hdeps c v depList hd) h hinv2

theorem resolveRoots_walkInv (U : List (String × String)) (hT : TransOn U)
    (hI : KeyInj U) (deps : DepsMap)
    (hdeps : ∀ c v l, depsGet deps c v = some l →
      ∀ p ∈ l.filterMap childPair, p ∈ U) (fuel : Nat) :
    ∀ (l : List (String × String)) (s s' : RState), (∀ p ∈ l, p ∈ U) →
      resolveRoots deps fuel l s = .done s' → WalkInv U s → WalkInv U s' := by
  intro l
  induction l with
  | nil =>
    intro s s' _ h hinv
    simp only [resolveRoots, RRes.done.injEq] at h
    exact h ▸ hinv
  | cons p rest ih =>
    intro s s' hl h hinv
    obtain ⟨name, version⟩ := p
    simp only [resolveRoots] at h
    cases hst : resolveNode deps fuel name version s with
    | fuelOut => rw [hst] at h; cases h
    | rerror => rw [hst] at h; cases h
    | done s1 =>
      rw [hst] at h
      exact ih s1 s' (fun q hq => hl q (List.mem_cons_of_mem _ hq)) h
        (resolveNode_walkInv U hT hI deps hdeps fuel name version s s1
          (hl _ (List.mem_cons_self _ _)) hst hinv)

theorem depsGet_childPair_mem_reqPairs (deps : DepsMap)
    (roots : List (String × String)) (c v : String)
    (l : List (String × String)) (h : depsGet deps c v = some l) :
    ∀ p ∈ l.filterMap childPair, p ∈ reqPairs deps roots := by
  intro p hp
  apply List.mem_append_right
  induction deps with
  | nil => cases h
  | cons e t ih =>
    obtain ⟨k, dl⟩ := e
    simp only [depsGet] at h
    simp only [List.foldr_cons]
    by_cases hk : k.1 = c ∧ k.2 = v
    · rw [if_pos hk, Option.some.injEq] at h
      exact List.mem_append_left _ (h ▸ hp)
    · rw [if_neg hk] at h
      exact List.mem_append_right _ (ih h)

theorem roots_mem_reqPairs (deps : DepsMap) (roots : List (String × String))
    (p : String × String) (h : p ∈ roots) : p ∈ reqPairs deps roots :=
  List.mem_append_left _ h

/-- Preservation of key-sortedness of the requirement map (the walk only
touches it through `mapSet`). -/
theorem resolveNode_sortedReq : ∀ (n : Nat) (deps : DepsMap) (c v : String)
    (s s' : RState), resolveNode deps n c v s = .done s' →
      s.required.Pairwise (fun p q => strLt p.1 q.1 = true) →
      s'.required.Pairwise (fun p q => strLt p.1 q.1 = true) := by
  intro n
  induction n with
  | zero => intro deps c v s s' h _; cases h
  | succ m ih =>
    intro deps c v s s' h hs0
    have hchildren : ∀ (l : List (String × String)) (s0 s0' : RState),
        resolveChildren (fun c' v' st => resolveNode deps m c' v' st) l s0 =
          .done s0' →
        s0.required.Pairwise (fun p q => strLt p.1 q.1 = true) →
        s0'.required.Pairwise (fun p q => strLt p.1 q.1 = true) := by
      intro l
      induction l with
      | nil =>
        intro s0 s0' h hs0
        simp only [resolveChildren, RRes.done.injEq] at h
        exact h ▸ hs0
      | cons p rest ihl =>
        intro s0 s0' h hs0
        obtain ⟨d, dv⟩ := p
        simp only [resolveChildren] at h
        by_cases hsd : strStartsWith d "com.unity." = true
        · rw [if_pos hsd] at h
          exact ihl s0 s0' h hs0
        · rw [if_neg hsd] at h
          cases hst : resolveNode deps m
              (if strStartsWith d "org.mixedrealitytoolkit" then strDrop d 24 else d) dv s0 with
          | fuelOut => rw [hst] at h; cases h
          | rerror => rw [hst] at h; cases h
          | done s1 =>
            rw [hst] at h
            exact ihl s1 s0' h (ih deps _ dv s0 s1 hst hs0)
    simp only [resolveNode] at h
    by_cases hp : (s.processed.contains (c ++ "-" ++ v)) = true
    · rw [if_pos hp] at h
      simp only [RRes.done.injEq] at h
      exact h ▸ hs0
    · rw [if_neg hp] at h
      cases hpr : (match mapGet s.required c with
        | none => Except.ok true
        | some oldV => isNewerVersion oldV v) with
      | error e => rw [hpr] at h; cases h
      | ok b =>
        rw [hpr] at h
        cases b with
        | false =>
          simp only [RRes.done.injEq] at h
          exact h ▸ hs0
        | true =>
          have hmid := mapSet_pairwise s.required c v hs0
          cases hd : depsGet deps c v with
          | none =>
            rw [hd] at h
            simp only [RRes.done.injEq] at h
            exact h ▸ hmid
          | some depList =>
            rw [hd] at h
            exact hchildren depList _ s' h hmid

theorem resolveRoots_sortedReq (deps : DepsMap) (fuel : Nat) :
    ∀ (l : List (String × String)) (s s' : RState),
      resolveRoots deps fuel l s = .done s' →
      s.required.Pairwise (fun p q => strLt p.1 q.1 = true) →
      s'.required.Pairwise (fun p q => strLt p.1 q.1 = true) := by
  intro l
  induction l with
  | nil =>
    intro s s' h hs0
    simp only [resolveRoots, RRes.done.injEq] at h
    exact h ▸ hs0
  | cons p rest ih =>
    intro s s' h hs0
    obtain ⟨name, version⟩ := p
    simp only [resolveRoots] at h
    cases hst : resolveNode deps fuel name version s with
    | fuelOut => rw [hst] at h; cases h
    | rerror => rw [hst] at h; cases h
    | done s1 =>
      rw [hst] at h
      exact ih s1 s' h (resolveNode_sortedReq fuel deps name version s s1 hst hs0)

theorem strLt_irrefl (s : String) : strLt s s = false := strGt_irrefl s

theorem pairwise_keys_nodup (m : List (String × String))
    (h : m.Pairwise (fun p q => strLt p.1 q.1 = true)) :
    (m.map Prod.fst).Nodup := by
  show (m.map Prod.fst).Pairwise (· ≠ ·)
  rw [List.pairwise_map]
  apply h.imp
  intro a b hab he
  rw [he, strLt_irrefl] at hab
  cases hab

theorem depsGet_filterDepsMap (deps : DepsMap) (c v : String) :
    depsGet (filterDepsMap deps) c v =
      (depsGet deps c v).map
        (List.filter fun p => !strStartsWith p.1 "com.unity.") := by
  induction deps with
  | nil => rfl
  | cons e t ih =>
    obtain ⟨k, dl⟩ := e
    simp only [filterDepsMap, List.map_cons, depsGet]
    by_cases hk : k.1 = c ∧ k.2 = v
    · rw [if_pos hk, if_pos hk]
      rfl
    · rw [if_neg hk, if_neg hk]
      exact ih

theorem resolveNode_filterDeps : ∀ (n : Nat) (deps : DepsMap)
    (c v : String) (s : RState),
    resolveNode (filterDepsMap deps) n c v s = resolveNode deps n c v s := by
  intro n
  induction n with
  | zero => intro deps c v s; rfl
  | succ m ih =>
    intro deps c v s
    simp only [resolveNode]
    by_cases hp : (s.processed.contains (c ++ "-" ++ v)) = true
    · simp only [if_pos hp]
    · simp only [if_neg hp]
      cases hpr : (match mapGet s.required c with
        | none => Except.ok true
        | some oldV => isNewerVersion oldV v) with
      | error e => rfl
      | ok b =>
        cases b with
        | false => rfl
        | true =>
          rw [depsGet_filterDepsMap]
          cases depsGet deps c v with
          | none => rfl
          | some depList =>
            show resolveChildren _ (depList.filter _) _ = _
            exact Eq.trans
              (resolveChildren_congr _ _ (fun c' v' st => ih deps c' v' st) _ _)
              (resolveChildren_filter _ depList _)

theorem resolveRoots_filterDeps (fuel : Nat) (deps : DepsMap) :
    ∀ (l : List (String × String)) (s : RState),
      resolveRoots (filterDepsMap deps) fuel l s = resolveRoots deps fuel l s := by
  intro l
  induction l with
  | nil => intro s; rfl
  | cons p rest ih =>
    intro s
    obtain ⟨name, version⟩ := p
    simp only [resolveRoots, resolveNode_filterDeps]
    cases resolveNode deps fuel name version s with
    | fuelOut => rfl
    | rerror => rfl
    | done s1 => exact ih s1

/-! ## The catalog sort on well-formed versions -/

theorem kLt_asymm (x y : Nat × Nat × Nat × Nat × Nat) (h : kLt x y = true) :
    kLt y x = false := by
  obtain ⟨a1, b1, c1, d1, e1⟩ := x
  obtain ⟨a2, b2, c2, d2, e2⟩ := y
  simp only [kLt, ne_eq, decide_eq_true_eq] at h ⊢
  split_ifs at h ⊢ <;> simp_all <;> omega

theorem kLt_irrefl (x : Nat × Nat × Nat × Nat × Nat) : kLt x x = false := by
  obtain ⟨a, b, c, d, e⟩ := x
  simp [kLt]

theorem mem_insertK (x y : String) (l : List String) :
    y ∈ insertK x l ↔ y = x ∨ y ∈ l := by
  induction l with
  | nil => simp [insertK]
  | cons z t ih =>
    simp only [insertK]
    by_cases hc : kLt (vkey z) (vkey x) = true
    · rw [if_pos hc]
      simp only [List.mem_cons, ih]
      try tauto
    · rw [if_neg hc]
      simp only [List.mem_cons]
      try tauto

theorem mem_isortK (x : String) (l : List String) :
    x ∈ isortK l ↔ x ∈ l := by
  induction l with
  | nil => simp [isortK]
  | cons z t ih =>
    simp only [isortK, mem_insertK, List.mem_cons, ih]

theorem insertK_chain (x : String) (l : List String) (h : KChain l) :
    KChain (insertK x l) := by
  induction l with
  | nil => simp [insertK, KChain]
  | cons z t ih =>
    simp only [insertK]
    by_cases hc : kLt (vkey z) (vkey x) = true
    · rw [if_pos hc]
      have hch := ih (List.Chain'.tail h)
      rw [KChain, List.chain'_cons']
      refine ⟨?_, hch⟩
      intro y hy
      cases t with
      | nil =>
        have hx : y = x := (by simpa [insertK] using hy : x = y).symm
        rw [hx]
        exact kLt_asymm _ _ hc
      | cons w ws =>
        by_cases hw : kLt (vkey w) (vkey x) = true
        · have hyw : y = w := (by simpa [insertK, if_pos hw] using hy : w = y).symm
          rw [hyw]
          exact (List.chain'_cons.mp h).1
        · have hyx : y = x := (by simpa [insertK, if_neg hw] using hy : x = y).symm
          rw [hyx]
          exact kLt_asymm _ _ hc
    · rw [if_neg hc]
      rw [KChain, List.chain'_cons]
      simp only [Bool.not_eq_true] at hc
      exact ⟨hc, h⟩

theorem isortK_chain (l : List String) : KChain (isortK l) := by
  induction l with
  | nil => simp [isortK, KChain]
  | cons z t ih => exact insertK_chain z (isortK t) ih

theorem isortK_of_chain (l : List String) (h : KChain l) : isortK l = l := by
  induction l with
  | nil => rfl
  | cons z t ih =>
    simp only [isortK]
    rw [ih (List.Chain'.tail h)]
    cases t with
    | nil => rfl
    | cons w ws =>
      simp only [insertK, (List.chain'_cons.mp h).1, Bool.false_eq_true,
        if_false]

theorem isortK_idem (l : List String) : isortK (isortK l) = isortK l :=
  isortK_of_chain (isortK l) (isortK_chain l)

theorem specNewer_key (a1 b1 c1 a2 b2 c2 : Nat) (o1 o2 : Option (List Char))
    (h1 : ∀ d ∈ o1, AllDigits d) (h2 : ∀ d ∈ o2, AllDigits d) :
    specNewer [a1, b1, c1] (o1.map fun d => [("pre" : String), ⟨d⟩])
      [a2, b2, c2] (o2.map fun d => [("pre" : String), ⟨d⟩]) =
      kLt (a1, b1, c1, if o1.isSome then 0 else 1, (o1.map digitsToNat).getD 0)
          (a2, b2, c2, if o2.isSome then 0 else 1,
            (o2.map digitsToNat).getD 0) := by
  rcases lt_trichotomy a1 a2 with ha | ha | ha
  · simp [specNewer, specCmpMain, kLt, ha, Nat.ne_of_lt ha]
  · subst ha
    rcases lt_trichotomy b1 b2 with hb | hb | hb
    · simp [specNewer, specCmpMain, kLt, hb, Nat.ne_of_lt hb]
    · subst hb
      rcases lt_trichotomy c1 c2 with hc | hc | hc
      · simp [specNewer, specCmpMain, kLt, hc, Nat.ne_of_lt hc]
      · subst hc
        cases o1 with
        | none =>
          cases o2 with
          | none => simp [specNewer, specCmpMain, kLt]
          | some dy => simp [specNewer, specCmpMain, kLt]
        | some dx =>
          cases o2 with
          | none => simp [specNewer, specCmpMain, kLt]
          | some dy =>
            have hnx : tagElemIsNum ⟨dx⟩ = true := by
              rw [tagElemIsNum_iff]
              exact ⟨(h1 dx rfl).1, (h1 dx rfl).2⟩
            have hny : tagElemIsNum ⟨dy⟩ = true := by
              rw [tagElemIsNum_iff]
              exact ⟨(h2 dy rfl).1, (h2 dy rfl).2⟩
            have hpre : tagElemIsNum "pre" = false := by decide
            have hstep : specCmpTag [("pre" : String), ⟨dx⟩]
                [("pre" : String), ⟨dy⟩] =
                (if digitsToNat dx < digitsToNat dy then some true
                 else if digitsToNat dy < digitsToNat dx then some false
                 else none) := by
              simp only [specCmpTag, hpre, Bool.false_and, Bool.false_eq_true,
                if_false, strGt_irrefl, hnx, hny, Bool.and_self, if_true]
            simp only [specNewer, specCmpMain, if_neg (lt_irrefl a1),
              if_neg (lt_irrefl b1), if_neg (lt_irrefl c1), Option.map_some,
              hstep, kLt]
            rcases lt_trichotomy (digitsToNat dx) (digitsToNat dy) with hd | hd | hd
            · simp [hstep, hd, Nat.ne_of_lt hd]
            · rw [hd] at hstep
              simp [hstep, hd]
            · simp [hstep, hd, Nat.ne_of_lt hd, Nat.lt_asymm hd]
      · simp [specNewer, specCmpMain, kLt, hc, Nat.lt_asymm hc,
          (Nat.ne_of_lt hc).symm]
    · simp [specNewer, specCmpMain, kLt, hb, Nat.lt_asymm hb,
        (Nat.ne_of_lt hb).symm]
  · simp [specNewer, specCmpMain, kLt, ha, Nat.lt_asymm ha,
      (Nat.ne_of_lt ha).symm]

theorem allDigits_takeWhile (l : List Char) :
    ∀ c ∈ l.takeWhile Char.isDigit, c.isDigit = true := by
  intro c hc
  exact List.mem_takeWhile_imp hc

theorem digit_not_dash (c : Char) (h : c.isDigit = true) : c ≠ '-' :=
  digit_ne_of_not_digit c '-' h (by decide)

theorem digit_not_dot (c : Char) (h : c.isDigit = true) : c ≠ '.' :=
  digit_ne_of_not_digit c '.' h (by decide)

theorem ne_nil_of_isEmpty_false {l : List Char} (h : l.isEmpty = false) :
    l ≠ [] := by
  intro hn
  rw [hn] at h
  simp at h

theorem token_ok (d : List Char) (hne : d ≠ [])
    (hdig : ∀ c ∈ d, c.isDigit = true) :
    (!(⟨d⟩ : String).isEmpty && (⟨d⟩ : String).data.all Char.isDigit) = true := by
  rw [Bool.and_eq_true, Bool.not_eq_true']
  exact ⟨(string_isEmpty_false_iff _).mpr hne, List.all_eq_true.mpr hdig⟩

theorem wf_parse (s : String) (h : verGramB s.data = true) :
    ∃ (d1 d2 d3 : List Char) (o : Option (List Char)),
      AllDigits d1 ∧ AllDigits d2 ∧ AllDigits d3 ∧ (∀ d ∈ o, AllDigits d) ∧
      specParseVersion s =
        some ([digitsToNat d1, digitsToNat d2, digitsToNat d3],
          o.map fun d => [("pre" : String), ⟨d⟩]) ∧
      vkey s = (digitsToNat d1, digitsToNat d2, digitsToNat d3,
        if o.isSome then 0 else 1, (o.map digitsToNat).getD 0) := by
  simp only [verGramB, Bool.and_eq_true, Bool.not_eq_true'] at h
  obtain ⟨he1, h⟩ := h
  have hd1 : ∀ c ∈ s.data.takeWhile Char.isDigit, c.isDigit = true :=
    allDigits_takeWhile s.data
  have hn1 : s.data.takeWhile Char.isDigit ≠ [] := ne_nil_of_isEmpty_false he1
  have hsplit1 := List.takeWhile_append_dropWhile (p := Char.isDigit) (l := s.data)
  split at h
  case h_2 => simp at h
  case h_1 r2' r2 heq1 =>
  rw [Bool.and_eq_true, Bool.not_eq_true'] at h
  obtain ⟨he2, h⟩ := h
  have hd2 : ∀ c ∈ r2.takeWhile Char.isDigit, c.isDigit = true :=
    allDigits_takeWhile r2
  have hn2 : r2.takeWhile Char.isDigit ≠ [] := ne_nil_of_isEmpty_false he2
  have hsplit2 := List.takeWhile_append_dropWhile (p := Char.isDigit) (l := r2)
  split at h
  case h_2 => simp at h
  case h_1 r4' r4 heq2 =>
  rw [Bool.and_eq_true, Bool.not_eq_true'] at h
  obtain ⟨he3, h⟩ := h
  have hd3 : ∀ c ∈ r4.takeWhile Char.isDigit, c.isDigit = true :=
    allDigits_takeWhile r4
  have hn3 : r4.takeWhile Char.isDigit ≠ [] := ne_nil_of_isEmpty_false he3
  have hsplit3 := List.takeWhile_append_dropWhile (p := Char.isDigit) (l := r4)
  have hmainsplit : ∀ tail : List Char,
      cppSplit '.' (s.data.takeWhile Char.isDigit ++ '.' ::
        (r2.takeWhile Char.isDigit ++ '.' ::
          (r4.takeWhile Char.isDigit ++ tail))) =
      (⟨s.data.takeWhile Char.isDigit⟩ : String) ::
        (⟨r2.takeWhile Char.isDigit⟩ : String) ::
        cppSplit '.' (r4.takeWhile Char.isDigit ++ tail) := by
    intro tail
    rw [cppSplit_append _ _ _ (fun c hc => digit_not_dot c (hd1 c hc)),
      cppSplit_append _ _ _ (fun c hc => digit_not_dot c (hd2 c hc))]
  split at h
  case h_3 => simp at h
  case h_1 heq3 =>
    -- stable version: no pre-release suffix
    have hcs : s.data = s.data.takeWhile Char.isDigit ++ '.' ::
        (r2.takeWhile Char.isDigit ++ '.' ::
          (r4.takeWhile Char.isDigit ++ [])) := by
      conv_lhs => rw [← hsplit1]
      rw [heq1]
      congr 1
      rw [List.cons_inj_right]
      conv_lhs => rw [← hsplit2]
      rw [heq2]
      congr 1
      rw [List.cons_inj_right]
      conv_lhs => rw [← hsplit3]
      rw [heq3]
    refine ⟨s.data.takeWhile Char.isDigit, r2.takeWhile Char.isDigit,
      r4.takeWhile Char.isDigit, none, ⟨hn1, hd1⟩, ⟨hn2, hd2⟩, ⟨hn3, hd3⟩,
      by simp, ?_, ?_⟩
    · have hnodash : ∀ c ∈ s.data, c ≠ '-' := by
        rw [hcs]
        intro c hc
        rcases List.mem_append.mp hc with hc | hc
        · exact digit_not_dash c (hd1 c hc)
        · rcases List.mem_cons.mp hc with hc | hc
          · rw [hc]; decide
          · rcases List.mem_append.mp hc with hc | hc
            · exact digit_not_dash c (hd2 c hc)
            · rcases List.mem_cons.mp hc with hc | hc
              · rw [hc]; decide
              · rcases List.mem_append.mp hc with hc | hc
                · exact digit_not_dash c (hd3 c hc)
                · cases hc
      obtain ⟨hmp, hht, _⟩ := mainPart_nodash s hnodash
      have hsplitcs : cppSplit '.' s.data =
          [⟨s.data.takeWhile Char.isDigit⟩, ⟨r2.takeWhile Char.isDigit⟩,
            ⟨r4.takeWhile Char.isDigit⟩] := by
        conv_lhs => rw [hcs]
        rw [hmainsplit, List.append_nil,
          cppSplit_all _ _ hn3 (fun c hc => digit_not_dot c (hd3 c hc))]
      simp only [specParseVersion, hmp, hht, hsplitcs, Bool.false_eq_true,
        if_false]
      rw [if_pos]
      · rfl
      · simp only [List.all_cons, List.all_nil, Bool.and_true]
        rw [token_ok _ hn1 hd1, token_ok _ hn2 hd2, token_ok _ hn3 hd3]
        rfl
    · have hr4all : ∀ x ∈ r4, x.isDigit = true := by
        have h4 := hsplit3
        rw [heq3, List.append_nil] at h4
        intro x hx
        apply hd3
        rw [h4]
        exact hx
      simp only [vkey, heq1, heq2, heq3]
      simp [heq2, heq3, hr4all, digitsToNat]
  case h_2 r6' r6 heq3 =>
    rw [Bool.and_eq_true, Bool.not_eq_true'] at h
    obtain ⟨he4, he5⟩ := h
    have hd4 : ∀ c ∈ r6.takeWhile Char.isDigit, c.isDigit = true :=
      allDigits_takeWhile r6
    have hn4 : r6.takeWhile Char.isDigit ≠ [] := ne_nil_of_isEmpty_false he4
    have hr6 : r6.takeWhile Char.isDigit = r6 := by
      have := List.takeWhile_append_dropWhile (p := Char.isDigit) (l := r6)
      rw [List.isEmpty_iff.mp he5] at this
      simpa using this
    have hr4eq : r4 = r4.takeWhile Char.isDigit ++
        '-' :: 'p' :: 'r' :: 'e' :: '.' :: r6 := by
      conv_lhs => rw [← hsplit3]
      rw [heq3]
    have hr2eq : r2 = r2.takeWhile Char.isDigit ++ '.' :: r4 := by
      conv_lhs => rw [← hsplit2]
      rw [heq2]
    have hcs : s.data = (s.data.takeWhile Char.isDigit ++ '.' ::
        (r2.takeWhile Char.isDigit ++ '.' :: r4.takeWhile Char.isDigit)) ++
        '-' :: ('p' :: 'r' :: 'e' :: '.' :: r6) := by
      conv_lhs => rw [← hsplit1, heq1, hr2eq, hr4eq]
      simp
    have hmainnodash : ∀ c ∈ s.data.takeWhile Char.isDigit ++ '.' ::
        (r2.takeWhile Char.isDigit ++ '.' :: r4.takeWhile Char.isDigit),
        c ≠ '-' := by
      intro c hc
      rcases List.mem_append.mp hc with hc | hc
      · exact digit_not_dash c (hd1 c hc)
      · rcases List.mem_cons.mp hc with hc | hc
        · rw [hc]; decide
        · rcases List.mem_append.mp hc with hc | hc
          · exact digit_not_dash c (hd2 c hc)
          · rcases List.mem_cons.mp hc with hc | hc
            · rw [hc]; decide
            · exact digit_not_dash c (hd3 c hc)
    have hsd : s = ⟨(s.data.takeWhile Char.isDigit ++ '.' ::
        (r2.takeWhile Char.isDigit ++ '.' :: r4.takeWhile Char.isDigit)) ++
        '-' :: ('p' :: 'r' :: 'e' :: '.' :: r6)⟩ := String.ext hcs
    obtain ⟨hmp, hht, htp⟩ := mainPart_split
      (s.data.takeWhile Char.isDigit ++ '.' ::
        (r2.takeWhile Char.isDigit ++ '.' :: r4.takeWhile Char.isDigit))
      ('p' :: 'r' :: 'e' :: '.' :: r6) hmainnodash
    rw [← hsd] at hmp hht htp
    refine ⟨s.data.takeWhile Char.isDigit, r2.takeWhile Char.isDigit,
      r4.takeWhile Char.isDigit, some (r6.takeWhile Char.isDigit),
      ⟨hn1, hd1⟩, ⟨hn2, hd2⟩, ⟨hn3, hd3⟩, ?_, ?_, ?_⟩
    · intro d hd
      rw [Option.mem_def, Option.some.injEq] at hd
      rw [← hd]
      exact ⟨hn4, hd4⟩
    · have hsplitmain : cppSplit '.' (mainPart s).data =
          [⟨s.data.takeWhile Char.isDigit⟩, ⟨r2.takeWhile Char.isDigit⟩,
            ⟨r4.takeWhile Char.isDigit⟩] := by
        rw [hmp]
        show cppSplit '.' (_ ++ '.' :: (_ ++ '.' :: _)) = _
        rw [cppSplit_append _ _ _ (fun c hc => digit_not_dot c (hd1 c hc)),
          cppSplit_append _ _ _ (fun c hc => digit_not_dot c (hd2 c hc)),
          cppSplit_all _ _ hn3 (fun c hc => digit_not_dot c (hd3 c hc))]
      have hn6 : r6 ≠ [] := by
        rw [← hr6]
        exact hn4
      have hall6 : ∀ c ∈ r6, c.isDigit = true := by
        intro c hc
        apply hd4
        rw [hr6]
        exact hc
      have hsplittag : cppSplit '.' (tagPart s).data =
          [("pre" : String), ⟨r6.takeWhile Char.isDigit⟩] := by
        rw [htp]
        show cppSplit '.' (['p', 'r', 'e'] ++ '.' :: r6) = _
        rw [cppSplit_append _ _ _ (by decide),
          cppSplit_all _ _ hn6 (fun c hc => digit_not_dot c (hall6 c hc))]
        rw [hr6]
      simp only [specParseVersion, hsplitmain, hht, if_true]
      rw [if_pos]
      · rw [hsplittag]
        rfl
      · simp only [List.all_cons, List.all_nil, Bool.and_true]
        rw [token_ok _ hn1 hd1, token_ok _ hn2 hd2, token_ok _ hn3 hd3]
        rfl
    · simp only [vkey, heq1, heq2, heq3]
      simp [heq2, heq3, hr6]

theorem isNewerVersion_key (x y : String) (hx : wfVersion x = true)
    (hy : wfVersion y = true) :
    isNewerVersion x y = .ok (kLt (vkey x) (vkey y)) := by
  rw [wfVersion, Bool.and_eq_true] at hx hy
  obtain ⟨hgx, hbx⟩ := hx
  obtain ⟨hgy, hby⟩ := hy
  obtain ⟨d1, d2, d3, o, _, _, _, ho, hpx, hkx⟩ := wf_parse x hgx
  obtain ⟨e1, e2, e3, p, _, _, _, hp, hpy, hky⟩ := wf_parse y hgy
  rw [isNewerVersion_spec x y _ _ hpx hpy hbx hby, hkx, hky]
  exact congrArg Except.ok (specNewer_key _ _ _ _ _ _ o p ho hp)

theorem insertSortedE_eq (x : String) (l : List String)
    (hx : wfVersion x = true) (hl : ∀ v ∈ l, wfVersion v = true) :
    insertSortedE isNewerVersion x l = .ok (insertK x l) := by
  induction l with
  | nil => rfl
  | cons y t ih =>
    have hy := hl y (List.mem_cons_self y t)
    have ht : ∀ v ∈ t, wfVersion v = true :=
      fun v hv => hl v (List.mem_cons_of_mem y hv)
    simp only [insertSortedE, bind, Except.bind, isNewerVersion_key y x hy hx,
      insertK]
    cases hk : kLt (vkey y) (vkey x) with
    | true =>
      simp only [if_true]
      rw [ih ht]
    | false =>
      simp only [Bool.false_eq_true, if_false]

theorem sortE_eq (l : List String) (hl : ∀ v ∈ l, wfVersion v = true) :
    sortE isNewerVersion l = .ok (isortK l) := by
  induction l with
  | nil => rfl
  | cons x t ih =>
    have hx := hl x (List.mem_cons_self x t)
    have ht : ∀ v ∈ t, wfVersion v = true :=
      fun v hv => hl v (List.mem_cons_of_mem x hv)
    simp only [sortE, bind, Except.bind, ih ht, isortK]
    exact insertSortedE_eq x (isortK t) hx
      (fun v hv => ht v ((mem_isortK v t).mp hv))

theorem wf_isortK (vs : List String) (h : ∀ v ∈ vs, wfVersion v = true) :
    ∀ v ∈ isortK vs, wfVersion v = true :=
  fun v hv => h v ((mem_isortK v vs).mp hv)

theorem catalogWF_lookup (cat : List (String × List String))
    (hwf : CatalogWF cat) (id : String) (vs : List String)
    (h : mapGet cat id = some vs) : ∀ v ∈ vs, wfVersion v = true :=
  hwf (id, vs) (mapGet_mem cat id vs h)

theorem catalogWF_mapSet (cat : List (String × List String))
    (hwf : CatalogWF cat) (id : String) (vs : List String)
    (hvs : ∀ v ∈ vs, wfVersion v = true) : CatalogWF (mapSet cat id vs) := by
  intro p hp
  rcases mem_mapSet cat id vs p hp with h | h
  · rw [h]
    exact hvs
  · exact hwf p h

theorem catRel_refl (cat : List (String × List String)) : catRel cat cat :=
  fun _ => Or.inl rfl

theorem catRel_mapSet (cat₀ cat : List (String × List String)) (id : String)
    (vs : List String) (hrel : catRel cat₀ cat) (h : mapGet cat id = some vs) :
    catRel cat₀ (mapSet cat id (isortK vs)) := by
  intro id'
  by_cases hid : id' = id
  · subst hid
    right
    rw [mapGet_mapSet_self]
    rcases hrel id' with h0 | h0
    · rw [h] at h0
      rw [← h0]
      rfl
    · rw [h] at h0
      cases hc : mapGet cat₀ id' with
      | none => rw [hc] at h0; cases h0
      | some vs₀ =>
        rw [hc] at h0
        simp only [Option.map_some'] at h0 ⊢
        rw [Option.some.injEq] at h0
        rw [h0, isortK_idem]
  · rw [mapGet_mapSet_ne _ _ _ _ hid]
    exact hrel id'

theorem catRel_mapSet_both (catA catB : List (String × List String))
    (id : String) (vs : List String) (hrel : catRel catA catB) :
    catRel (mapSet catA id vs) (mapSet catB id vs) := by
  intro id'
  by_cases hid : id' = id
  · subst hid
    left
    rw [mapGet_mapSet_self, mapGet_mapSet_self]
  · rw [mapGet_mapSet_ne _ _ _ _ hid, mapGet_mapSet_ne _ _ _ _ hid]
    exact hrel id'

theorem selLoop_run_rel (aps : List SelectablePackage) (idxs : List Nat) :
    ∀ (cat₀ cat : List (String × List String)) (rus : List (String × String))
      (oxr : List String)
      (out : List (String × List String) × List (String × String) ×
        List String),
      CatalogWF cat → catRel cat₀ cat →
      selLoop aps idxs cat rus oxr = .done out →
      catRel cat₀ out.1 ∧ CatalogWF out.1 := by
  induction idxs with
  | nil =>
    intro cat₀ cat rus oxr out hwf hrel h
    simp only [selLoop] at h
    cases h
    exact ⟨hrel, hwf⟩
  | cons idx rest ih =>
    intro cat₀ cat rus oxr out hwf hrel h
    simp only [selLoop] at h
    cases hpkg : aps.get? idx with
    | none => rw [hpkg] at h; cases h
    | some pkg =>
      simp only [hpkg] at h
      cases htype : pkg.type with
      | OpenXR =>
        simp only [htype] at h
        exact ih cat₀ cat rus _ out hwf hrel h
      | MRTK =>
        simp only [htype] at h
        cases hga : mapGet cat pkg.identifier with
        | none => rw [hga] at h; cases h
        | some versions =>
          have hvs := catalogWF_lookup cat hwf pkg.identifier versions hga
          simp only [hga, sortE_eq versions hvs] at h
          cases hlast : (isortK versions).getLast? with
          | none => rw [hlast] at h; cases h
          | some latest =>
            simp only [hlast] at h
            exact ih cat₀ _ _ _ out
              (catalogWF_mapSet cat hwf pkg.identifier (isortK versions)
                (wf_isortK versions hvs))
              (catRel_mapSet cat₀ cat pkg.identifier versions hrel hga) h

theorem selLoop_two_runs (aps : List SelectablePackage) (idxs : List Nat) :
    ∀ (catA catB : List (String × List String)) (rus : List (String × String))
      (oxrA oxrB : List String)
      (out : List (String × List String) × List (String × String) ×
        List String),
      CatalogWF catA → catRel catA catB →
      selLoop aps idxs catA rus oxrA = .done out →
      ∃ catB' oxrB',
        selLoop aps idxs catB rus oxrB = .done (catB', out.2.1, oxrB') := by
  induction idxs with
  | nil =>
    intro catA catB rus oxrA oxrB out hwf hrel h
    simp only [selLoop] at h ⊢
    cases h
    exact ⟨catB, oxrB, rfl⟩
  | cons idx rest ih =>
    intro catA catB rus oxrA oxrB out hwf hrel h
    simp only [selLoop] at h ⊢
    cases hpkg : aps.get? idx with
    | none => rw [hpkg] at h; cases h
    | some pkg =>
      simp only [hpkg] at h ⊢
      cases htype : pkg.type with
      | OpenXR =>
        simp only [htype] at h ⊢
        exact ih catA catB rus _ _ out hwf hrel h
      | MRTK =>
        simp only [htype] at h ⊢
        cases hga : mapGet catA pkg.identifier with
        | none => rw [hga] at h; cases h
        | some versions =>
          have hvs := catalogWF_lookup catA hwf pkg.identifier versions hga
          simp only [hga, sortE_eq versions hvs] at h
          cases hlast : (isortK versions).getLast? with
          | none => rw [hlast] at h; cases h
          | some latest =>
            simp only [hlast] at h
            have hwf' := catalogWF_mapSet catA hwf pkg.identifier
              (isortK versions) (wf_isortK versions hvs)
            have hrel' := catRel_mapSet_both catA catB pkg.identifier
              (isortK versions) hrel
            rcases hrel pkg.identifier with hgb | hgb
            · rw [hga] at hgb
              simp only [hgb, sortE_eq versions hvs, hlast]
              exact ih _ _ _ _ oxrB out hwf' hrel' h
            · rw [hga] at hgb
              simp only [Option.map_some'] at hgb
              have hvs' := wf_isortK versions hvs
              simp only [hgb, sortE_eq (isortK versions) hvs', isortK_idem,
                hlast]
              exact ih _ _ _ _ oxrB out hwf' hrel' h

theorem selLoop_oxr_mono (aps : List SelectablePackage) (idxs : List Nat) :
    ∀ (cat : List (String × List String)) (rus : List (String × String))
      (oxr : List String)
      (out : List (String × List String) × List (String × String) ×
        List String),
      selLoop aps idxs cat rus oxr = .done out →
      ∀ x ∈ oxr, x ∈ out.2.2 := by
  induction idxs with
  | nil =>
    intro cat rus oxr out h x hx
    simp only [selLoop] at h
    cases h
    exact hx
  | cons idx rest ih =>
    intro cat rus oxr out h x hx
    simp only [selLoop] at h
    cases hpkg : aps.get? idx with
    | none => rw [hpkg] at h; cases h
    | some pkg =>
      simp only [hpkg] at h
      cases htype : pkg.type with
      | OpenXR =>
        simp only [htype] at h
        exact ih cat rus _ out h x ((mem_setIns oxr pkg.identifier x).mpr
          (Or.inr hx))
      | MRTK =>
        simp only [htype] at h
        cases hga : mapGet cat pkg.identifier with
        | none => rw [hga] at h; cases h
        | some versions =>
          simp only [hga] at h
          cases hsrt : sortE isNewerVersion versions with
          | error e => rw [hsrt] at h; cases h
          | ok sorted =>
            simp only [hsrt] at h
            cases hlast : sorted.getLast? with
            | none => rw [hlast] at h; cases h
            | some latest =>
              simp only [hlast] at h
              exact ih _ _ _ out h x hx

theorem resolveRoots_no_fuelOut (deps : DepsMap) :
    ∀ (l : List (String × String)) (n : Nat) (s : RState),
      unprocCount deps s < n → resolveRoots deps n l s ≠ .fuelOut := by
  intro l
  induction l with
  | nil =>
    intro n s _ h
    simp only [resolveRoots] at h
    cases h
  | cons p rest ih =>
    intro n s hn h
    obtain ⟨name, version⟩ := p
    simp only [resolveRoots] at h
    cases hst : resolveNode deps n name version s with
    | fuelOut => exact resolveNode_no_fuelOut n deps name version s hn hst
    | rerror => rw [hst] at h; cases h
    | done s1 =>
      rw [hst] at h
      have hext := resolveNode_ext n deps name version s s1 hst
      exact ih n s1
        (Nat.lt_of_le_of_lt (unprocCount_le_of_sub deps s s1 hext.1) hn) h

theorem isEmpty_false_of_ne_nil {l : List Char} (h : l ≠ []) :
    l.isEmpty = false := by
  cases l with
  | nil => exact absurd rfl h
  | cons c t => rfl

theorem matchVerTgz_stable (d1 d2 d3 post : List Char) (h1 : AllDigits d1)
    (h2 : AllDigits d2) (h3 : AllDigits d3) :
    matchVerTgz (d1 ++ '.' :: d2 ++ '.' :: d3 ++
        '.' :: 't' :: 'g' :: 'z' :: post) =
      some (d1 ++ '.' :: d2 ++ '.' :: d3, post) := by
  obtain ⟨hn1, hd1⟩ := h1
  obtain ⟨hn2, hd2⟩ := h2
  obtain ⟨hn3, hd3⟩ := h3
  have e1t : (d1 ++ '.' :: d2 ++ '.' :: d3 ++
      '.' :: 't' :: 'g' :: 'z' :: post).takeWhile Char.isDigit = d1 := by
    simpa using takeWhile_append_stop _ d1 '.' _ hd1 (by decide)
  have e1d : (d1 ++ '.' :: d2 ++ '.' :: d3 ++
      '.' :: 't' :: 'g' :: 'z' :: post).dropWhile Char.isDigit =
      '.' :: (d2 ++ '.' :: d3 ++ '.' :: 't' :: 'g' :: 'z' :: post) := by
    simpa using dropWhile_append_stop _ d1 '.' _ hd1 (by decide)
  have e2t : (d2 ++ '.' :: d3 ++
      '.' :: 't' :: 'g' :: 'z' :: post).takeWhile Char.isDigit = d2 := by
    simpa using takeWhile_append_stop _ d2 '.' _ hd2 (by decide)
  have e2d : (d2 ++ '.' :: d3 ++
      '.' :: 't' :: 'g' :: 'z' :: post).dropWhile Char.isDigit =
      '.' :: (d3 ++ '.' :: 't' :: 'g' :: 'z' :: post) := by
    simpa using dropWhile_append_stop _ d2 '.' _ hd2 (by decide)
  have e3t : (d3 ++ '.' :: 't' :: 'g' :: 'z' :: post).takeWhile Char.isDigit =
      d3 := takeWhile_append_stop _ d3 '.' _ hd3 (by decide)
  have e3d : (d3 ++ '.' :: 't' :: 'g' :: 'z' :: post).dropWhile Char.isDigit =
      '.' :: 't' :: 'g' :: 'z' :: post := by
    simpa using dropWhile_append_stop _ d3 '.' _ hd3 (by decide)
  simp only [matchVerTgz, e1t, e1d, isEmpty_false_of_ne_nil hn1,
    Bool.false_eq_true, if_false, e2t, e2d, isEmpty_false_of_ne_nil hn2,
    e3t, e3d, isEmpty_false_of_ne_nil hn3]
  rfl

theorem matchVerTgz_pre (d1 d2 d3 d4 post : List Char) (h1 : AllDigits d1)
    (h2 : AllDigits d2) (h3 : AllDigits d3) (h4 : AllDigits d4) :
    matchVerTgz (d1 ++ '.' :: d2 ++ '.' :: d3 ++
        '-' :: 'p' :: 'r' :: 'e' :: '.' :: d4 ++
        '.' :: 't' :: 'g' :: 'z' :: post) =
      some (d1 ++ '.' :: d2 ++ '.' :: d3 ++
        '-' :: 'p' :: 'r' :: 'e' :: '.' :: d4, post) := by
  obtain ⟨hn1, hd1⟩ := h1
  obtain ⟨hn2, hd2⟩ := h2
  obtain ⟨hn3, hd3⟩ := h3
  obtain ⟨hn4, hd4⟩ := h4
  have e1t : (d1 ++ '.' :: d2 ++ '.' :: d3 ++
      '-' :: 'p' :: 'r' :: 'e' :: '.' :: d4 ++
      '.' :: 't' :: 'g' :: 'z' :: post).takeWhile Char.isDigit = d1 := by
    simpa using takeWhile_append_stop _ d1 '.' _ hd1 (by decide)
  have e1d : (d1 ++ '.' :: d2 ++ '.' :: d3 ++
      '-' :: 'p' :: 'r' :: 'e' :: '.' :: d4 ++
      '.' :: 't' :: 'g' :: 'z' :: post).dropWhile Char.isDigit =
      '.' :: (d2 ++ '.' :: d3 ++ '-' :: 'p' :: 'r' :: 'e' :: '.' :: d4 ++
        '.' :: 't' :: 'g' :: 'z' :: post) := by
    simpa using dropWhile_append_stop _ d1 '.' _ hd1 (by decide)
  have e2t : (d2 ++ '.' :: d3 ++ '-' :: 'p' :: 'r' :: 'e' :: '.' :: d4 ++
      '.' :: 't' :: 'g' :: 'z' :: post).takeWhile Char.isDigit = d2 := by
    simpa using takeWhile_append_stop _ d2 '.' _ hd2 (by decide)
  have e2d : (d2 ++ '.' :: d3 ++ '-' :: 'p' :: 'r' :: 'e' :: '.' :: d4 ++
      '.' :: 't' :: 'g' :: 'z' :: post).dropWhile Char.isDigit =
      '.' :: (d3 ++ '-' :: 'p' :: 'r' :: 'e' :: '.' :: d4 ++
        '.' :: 't' :: 'g' :: 'z' :: post) := by
    simpa using dropWhile_append_stop _ d2 '.' _ hd2 (by decide)
  have e3t : (d3 ++ '-' :: 'p' :: 'r' :: 'e' :: '.' :: d4 ++
      '.' :: 't' :: 'g' :: 'z' :: post).takeWhile Char.isDigit = d3 := by
    simpa using takeWhile_append_stop _ d3 '-' _ hd3 (by decide)
  have e3d : (d3 ++ '-' :: 'p' :: 'r' :: 'e' :: '.' :: d4 ++
      '.' :: 't' :: 'g' :: 'z' :: post).dropWhile Char.isDigit =
      '-' :: 'p' :: 'r' :: 'e' :: '.' :: (d4 ++
        '.' :: 't' :: 'g' :: 'z' :: post) := by
    simpa using dropWhile_append_stop _ d3 '-' _ hd3 (by decide)
  have e4t : (d4 ++ '.' :: 't' :: 'g' :: 'z' :: post).takeWhile Char.isDigit =
      d4 := by
    simpa using takeWhile_append_stop _ d4 '.' _ hd4 (by decide)
  have e4d : (d4 ++ '.' :: 't' :: 'g' :: 'z' :: post).dropWhile Char.isDigit =
      '.' :: 't' :: 'g' :: 'z' :: post := by
    simpa using dropWhile_append_stop _ d4 '.' _ hd4 (by decide)
  simp only [matchVerTgz, e1t, e1d, isEmpty_false_of_ne_nil hn1,
    Bool.false_eq_true, if_false, e2t, e2d, isEmpty_false_of_ne_nil hn2,
    e3t, e3d, isEmpty_false_of_ne_nil hn3, e4t, e4d,
    isEmpty_false_of_ne_nil hn4]

theorem matchVerTgz_of_verGram (ver post : List Char) (h : VerGram ver) :
    matchVerTgz (ver ++ '.' :: 't' :: 'g' :: 'z' :: post) =
      some (ver, post) := by
  obtain ⟨d1, d2, d3, h1, h2, h3, hsh⟩ := h
  rcases hsh with hsh | ⟨d4, h4, hsh⟩
  · rw [hsh]
    have := matchVerTgz_stable d1 d2 d3 post h1 h2 h3
    rw [← this]
  · rw [hsh]
    have := matchVerTgz_pre d1 d2 d3 d4 post h1 h2 h3 h4
    rw [← this]

theorem idScan_ne_none : ∀ (l acc idp rest' : List Char),
    l = idp ++ '-' :: rest' → idp ≠ [] →
    (∀ c ∈ idp, cIsLineTerm c = false) →
    matchVerTgz rest' ≠ none → idScan acc l ≠ none := by
  intro l
  induction l with
  | nil =>
    intro acc idp rest' heq hne _ _
    cases idp with
    | nil => exact absurd rfl hne
    | cons c t => cases heq
  | cons c rest ih =>
    intro acc idp rest' heq hne hnl hmv
    cases idp with
    | nil => exact absurd rfl hne
    | cons c0 idt =>
      rw [List.cons_append] at heq
      injection heq with hc hrest
      subst hc
      have hcn : cIsLineTerm c = false := hnl c (List.mem_cons_self _ _)
      have hcn' : ¬ (cIsLineTerm c = true) := by
        rw [hcn]
        exact Bool.false_ne_true
      simp only [idScan, if_neg hcn']
      cases idt with
      | nil =>
        simp only [List.nil_append] at hrest
        subst hrest
        cases hm : matchVerTgz rest' with
        | none => exact absurd hm hmv
        | some r =>
          obtain ⟨verl, r8⟩ := r
          simp [hm]
      | cons d idt' =>
        rw [List.cons_append] at hrest
        subst hrest
        have hrec := ih (acc ++ [c]) (d :: idt') rest' rfl
          (List.cons_ne_nil d idt')
          (fun x hx => hnl x (List.mem_cons_of_mem _ hx)) hmv
        intro hcon
        split at hcon
        · split at hcon
          · cases hcon
          · exact hrec hcon
        · exact hrec hcon

theorem isPrefixOf_append_self (p r : List Char) :
    p.isPrefixOf (p ++ r) = true := by
  induction p with
  | nil => simp [List.isPrefixOf]
  | cons a t ih => simp [List.isPrefixOf, ih]

theorem lit_drop (l : List Char) :
    ("org.mixedrealitytoolkit.".data ++ l).drop 24 = l := by
  have h24 : ("org.mixedrealitytoolkit.".data).length = 24 := rfl
  rw [← h24, List.drop_left]

theorem tryMatchAt_lit (l : List Char) :
    tryMatchAt ("org.mixedrealitytoolkit.".data ++ l) = idScan [] l := by
  simp only [tryMatchAt, isPrefixOf_append_self, if_true]
  exact congrArg (idScan []) (lit_drop l)

theorem regexSearchECI_ne_none : ∀ (cs pre t : List Char), cs = pre ++ t →
    tryMatchAt t ≠ none → regexSearchECI cs ≠ none := by
  intro cs
  induction cs with
  | nil =>
    intro pre t heq hne
    have ht : t = [] := by
      cases t with
      | nil => rfl
      | cons a t' => cases pre <;> cases heq
    rw [ht] at hne
    exact absurd (by decide) hne
  | cons c rest ih =>
    intro pre t heq hne hcontra
    simp only [regexSearchECI] at hcontra
    cases htry : tryMatchAt (c :: rest) with
    | some r => rw [htry] at hcontra; cases hcontra
    | none =>
      rw [htry] at hcontra
      cases pre with
      | nil =>
        simp only [List.nil_append] at heq
        rw [← heq] at hne
        exact hne htry
      | cons a pre' =>
        rw [List.cons_append] at heq
        injection heq with h1 h2
        exact ih pre' t h2 hne hcontra

theorem subMatch_search (s : String) (h : SubMatch s) :
    regexSearchECI s.data ≠ none := by
  obtain ⟨pre, id, ver, post, heq, hid, hnl, hvg⟩ := h
  apply regexSearchECI_ne_none s.data pre
    ("org.mixedrealitytoolkit.".data ++
      (id ++ '-' :: (ver ++ '.' :: 't' :: 'g' :: 'z' :: post)))
  · rw [heq]
    simp
  · rw [tryMatchAt_lit]
    exact idScan_ne_none _ [] id (ver ++ '.' :: 't' :: 'g' :: 'z' :: post) rfl
      hid hnl (by rw [matchVerTgz_of_verGram ver post hvg]; simp)

theorem matchVerTgz_sound (cs ver rest : List Char)
    (h : matchVerTgz cs = some (ver, rest)) :
    VerGram ver ∧ cs = ver ++ '.' :: 't' :: 'g' :: 'z' :: rest := by
  have hs1 := List.takeWhile_append_dropWhile (p := Char.isDigit) (l := cs)
  have ha1 := allDigits_takeWhile cs
  simp only [matchVerTgz] at h
  split at h
  · cases h
  rename_i hne1
  rw [Bool.not_eq_true] at hne1
  split at h
  case h_2 => cases h
  case h_1 r2 heq1 =>
  have hs2 := List.takeWhile_append_dropWhile (p := Char.isDigit) (l := r2)
  have ha2 := allDigits_takeWhile r2
  split at h
  · cases h
  rename_i hne2
  rw [Bool.not_eq_true] at hne2
  split at h
  case h_2 => cases h
  case h_1 r4 heq2 =>
  have hs3 := List.takeWhile_append_dropWhile (p := Char.isDigit) (l := r4)
  have ha3 := allDigits_takeWhile r4
  split at h
  · cases h
  rename_i hne3
  rw [Bool.not_eq_true] at hne3
  have hd1 : AllDigits (cs.takeWhile Char.isDigit) :=
    ⟨ne_nil_of_isEmpty_false hne1, ha1⟩
  have hd2 : AllDigits (r2.takeWhile Char.isDigit) :=
    ⟨ne_nil_of_isEmpty_false hne2, ha2⟩
  have hd3 : AllDigits (r4.takeWhile Char.isDigit) :=
    ⟨ne_nil_of_isEmpty_false hne3, ha3⟩
  have hcs : cs = cs.takeWhile Char.isDigit ++ '.' ::
      (r2.takeWhile Char.isDigit ++ '.' ::
        (r4.takeWhile Char.isDigit ++ r4.dropWhile Char.isDigit)) := by
    conv_lhs => rw [← hs1]
    rw [heq1]
    congr 1
    rw [List.cons_inj_right]
    conv_lhs => rw [← hs2]
    rw [heq2]
    congr 1
    rw [List.cons_inj_right]
    conv_lhs => rw [← hs3]
  split at h
  case h_1 res heqP =>
    rw [Option.some.injEq] at h
    split at heqP
    case h_2 => cases heqP
    case h_1 r6 heq3 =>
    have hs4 := List.takeWhile_append_dropWhile (p := Char.isDigit) (l := r6)
    have ha4 := allDigits_takeWhile r6
    split at heqP
    · cases heqP
    rename_i hne4
    rw [Bool.not_eq_true] at hne4
    have hd4 : AllDigits (r6.takeWhile Char.isDigit) :=
      ⟨ne_nil_of_isEmpty_false hne4, ha4⟩
    split at heqP
    case h_2 => cases heqP
    case h_1 r8 heq4 =>
    rw [Option.some.injEq] at heqP
    rw [h] at heqP
    rw [Prod.mk.injEq] at heqP
    obtain ⟨hver, hrest⟩ := heqP
    subst hver
    subst hrest
    constructor
    · exact ⟨cs.takeWhile Char.isDigit, r2.takeWhile Char.isDigit,
        r4.takeWhile Char.isDigit, hd1, hd2, hd3,
        Or.inr ⟨r6.takeWhile Char.isDigit, hd4, by simp⟩⟩
    · have hr6 : r6 = r6.takeWhile Char.isDigit ++
          '.' :: 't' :: 'g' :: 'z' :: r8 := by
        conv_lhs => rw [← hs4]
        rw [heq4]
      conv_lhs => rw [hcs, heq3, hr6]
      simp
  case h_2 heqP =>
    split at h
    case h_2 => cases h
    case h_1 r8 heq4 =>
    rw [Option.some.injEq, Prod.mk.injEq] at h
    obtain ⟨hver, hrest⟩ := h
    subst hver
    subst hrest
    constructor
    · exact ⟨cs.takeWhile Char.isDigit, r2.takeWhile Char.isDigit,
        r4.takeWhile Char.isDigit, hd1, hd2, hd3, Or.inl rfl⟩
    · conv_lhs => rw [hcs, heq4]
      simp

theorem idScan_sound : ∀ (l acc : List Char) (i v : String),
    idScan acc l = some (i, v) →
    ∃ idadd rest' verl r8, l = idadd ++ '-' :: rest' ∧
      i = ⟨acc ++ idadd⟩ ∧ idadd ≠ [] ∧
      (∀ c ∈ idadd, cIsLineTerm c = false) ∧
      matchVerTgz rest' = some (verl, r8) ∧ v = ⟨verl⟩ := by
  intro l
  induction l with
  | nil => intro acc i v h; cases h
  | cons c rest ih =>
    intro acc i v h
    simp only [idScan] at h
    split at h
    · cases h
    rename_i hcn
    rw [Bool.not_eq_true] at hcn
    split at h
    case h_1 x r2 =>
      split at h
      case h_1 p verl r8 heqm =>
        rw [Option.some.injEq, Prod.mk.injEq] at h
        obtain ⟨hi, hv⟩ := h
        refine ⟨[c], r2, verl, r8, rfl, hi.symm, List.cons_ne_nil c [],
          ?_, heqm, hv.symm⟩
        intro y hy
        rw [List.mem_singleton] at hy
        rw [hy]
        exact hcn
      case h_2 heqm =>
        obtain ⟨idadd, rest', verl, r8, hl, hi, hne, hnl, hmv, hv⟩ :=
          ih (acc ++ [c]) i v h
        refine ⟨c :: idadd, rest', verl, r8, ?_,
          ?_, List.cons_ne_nil c idadd, ?_, hmv, hv⟩
        · rw [List.cons_append, ← hl]
        · rw [hi]
          simp
        · intro y hy
          rcases List.mem_cons.mp hy with hy | hy
          · rw [hy]; exact hcn
          · exact hnl y hy
    case h_2 =>
      obtain ⟨idadd, rest', verl, r8, hl, hi, hne, hnl, hmv, hv⟩ :=
        ih (acc ++ [c]) i v h
      refine ⟨c :: idadd, rest', verl, r8, ?_,
        ?_, List.cons_ne_nil c idadd, ?_, hmv, hv⟩
      · rw [List.cons_append, ← hl]
      · rw [hi]
        simp
      · intro y hy
        rcases List.mem_cons.mp hy with hy | hy
        · rw [hy]; exact hcn
        · exact hnl y hy

theorem isPrefixOf_exists (p : List Char) :
    ∀ l : List Char, p.isPrefixOf l = true → ∃ t, l = p ++ t := by
  induction p with
  | nil => exact fun l _ => ⟨l, rfl⟩
  | cons a ps ih =>
    intro l h
    cases l with
    | nil => cases h
    | cons b ls =>
      simp only [List.isPrefixOf, Bool.and_eq_true, beq_iff_eq] at h
      obtain ⟨hab, h2⟩ := h
      obtain ⟨t, ht⟩ := ih ls h2
      subst hab
      exact ⟨t, by rw [ht, List.cons_append]⟩

theorem tryMatchAt_sound (cs : List Char) (i v : String)
    (h : tryMatchAt cs = some (i, v)) :
    ∃ l, cs = "org.mixedrealitytoolkit.".data ++ l ∧
      idScan [] l = some (i, v) := by
  simp only [tryMatchAt] at h
  split at h
  · rename_i hpre
    obtain ⟨t, ht⟩ := isPrefixOf_exists "org.mixedrealitytoolkit.".data cs hpre
    refine ⟨t, ht, ?_⟩
    rw [← lit_drop t, ← ht]
    exact h
  · cases h

theorem regexSearchECI_sound : ∀ (cs : List Char) (i v : String),
    regexSearchECI cs = some (i, v) →
    ∃ pre t, cs = pre ++ t ∧ tryMatchAt t = some (i, v) := by
  intro cs
  induction cs with
  | nil => intro i v h; cases h
  | cons c rest ih =>
    intro i v h
    simp only [regexSearchECI] at h
    split at h
    case h_1 r heqt =>
      rw [Option.some.injEq] at h
      exact ⟨[], c :: rest, rfl, by rw [heqt, h]⟩
    case h_2 heqt =>
      obtain ⟨pre, t, hp, ht⟩ := ih i v h
      exact ⟨c :: pre, t, by rw [List.cons_append, ← hp], ht⟩

theorem search_some_subMatch (s : String) (i v : String)
    (h : regexSearchECI s.data = some (i, v)) : SubMatch s ∧ i ≠ "" := by
  obtain ⟨pre, t, hp, ht⟩ := regexSearchECI_sound s.data i v h
  obtain ⟨l, hl, hscan⟩ := tryMatchAt_sound t i v ht
  obtain ⟨idadd, rest', verl, r8, hrest, hi, hne, hnl, hmv, hv⟩ :=
    idScan_sound l [] i v hscan
  obtain ⟨hvg, hverl⟩ := matchVerTgz_sound rest' verl r8 hmv
  constructor
  · refine ⟨pre, idadd, verl, r8, ?_, hne, hnl, hvg⟩
    rw [hp, hl, hrest, hverl]
    simp
  · rw [hi]
    intro hcon
    apply hne
    have := congrArg String.data hcon
    simpa using this

theorem char_eq_of_toNat_eq (a b : Char) (h : a.toNat = b.toNat) : a = b :=
  Char.eq_of_val_eq (UInt32.ext h)

theorem unityGT_spec (x y : UnityVersion) : unityGT x y = specHostTagGt x y := by
  obtain ⟨a1, b1, c1, t1, d1⟩ := x
  obtain ⟨a2, b2, c2, t2, d2⟩ := y
  simp only [unityGT, specHostTagGt]
  by_cases h1 : a1 = a2
  · subst h1
    rw [if_neg (by simp), if_neg (lt_irrefl a1), if_neg (lt_irrefl a1)]
    by_cases h2 : b1 = b2
    · subst h2
      rw [if_neg (by simp), if_neg (lt_irrefl b1), if_neg (lt_irrefl b1)]
      by_cases h3 : c1 = c2
      · subst h3
        rw [if_neg (by simp), if_neg (lt_irrefl c1), if_neg (lt_irrefl c1)]
        by_cases h4 : t1 = t2
        · subst h4
          rw [if_neg (by simp), if_neg (lt_irrefl t1.toNat),
            if_neg (lt_irrefl t1.toNat)]
        · rw [if_pos h4]
          rcases Nat.lt_trichotomy t2.toNat t1.toNat with h | h | h
          · rw [if_pos h]
            exact decide_eq_true h
          · exact absurd (char_eq_of_toNat_eq t1 t2 h.symm) h4
          · rw [if_neg (by omega), if_pos h]
            apply decide_eq_false
            intro hc
            have hc' : t2.toNat < t1.toNat := hc
            omega
      · rw [if_pos h3]
        rcases lt_trichotomy c2 c1 with h | h | h
        · rw [if_pos h]
          exact decide_eq_true h
        · exact absurd h.symm h3
        · rw [if_neg (by omega), if_pos h]
          exact decide_eq_false (by omega)
    · rw [if_pos h2]
      rcases lt_trichotomy b2 b1 with h | h | h
      · rw [if_pos h]
        exact decide_eq_true h
      · exact absurd h.symm h2
      · rw [if_neg (by omega), if_pos h]
        exact decide_eq_false (by omega)
  · rw [if_pos h1]
    rcases lt_trichotomy a2 a1 with h | h | h
    · rw [if_pos h]
      exact decide_eq_true h
    · exact absurd h.symm h1
    · rw [if_neg (by omega), if_pos h]
      exact decide_eq_false (by omega)

/-! ## Claim theorems -/

/-- C4 — Termination of the recursive walk: for every dependency table,
every start node, every root list and every starting state there is a fuel
bound under which neither `resolveNode` (the embedding of
`resolveDependenciesRecursive`) nor the driver loop `resolveRoots` runs out
of fuel: every call either returns via the visited-key check or the
not-older short-circuit, or processes a fresh `identifier-version` key, and
only finitely many such keys exist. -/
theorem c4_walk_terminates (deps : DepsMap) (c v : String)
    (roots : List (String × String)) (s : RState) :
    ∃ n : Nat, resolveNode deps n c v s ≠ .fuelOut ∧
      resolveRoots deps n roots s ≠ .fuelOut :=
  ⟨unprocCount deps s + 1,
    resolveNode_no_fuelOut _ deps c v s (Nat.lt_succ_self _),
    resolveRoots_no_fuelOut deps roots _ s (Nat.lt_succ_self _)⟩

/-- C9 — A missing `Packages/manifest.json` aborts only the install phase:
`installPackagesToProject` returns the manifest-missing error, the (absent)
manifest document is not written, and the staged artifacts remain on disk
(moved into the project's `MixedReality` folder before the check). -/
theorem c9_manifest_missing (oxr : List String) (fs : FS)
    (h : fs.manifest = none) :
    installPackagesToProject oxr fs =
      ({ fs with cwdTgz := [], projectMR := some fs.cwdTgz },
        .manifestMissing) ∧
    (installPackagesToProject oxr fs).1.manifest = fs.manifest ∧
    (installPackagesToProject oxr fs).1.projectMR = some fs.cwdTgz := by
  simp only [installPackagesToProject, h]
  exact ⟨trivial, trivial, trivial⟩

theorem c9_manifest_missing_witness :
    installPackagesToProject [] ⟨["org.mixedrealitytoolkit.core-3.2.0.tgz"],
        none, none, "2022.3.5f1"⟩ =
      (⟨[], some ["org.mixedrealitytoolkit.core-3.2.0.tgz"], none,
        "2022.3.5f1"⟩, .manifestMissing) :=
  (c9_manifest_missing [] ⟨["org.mixedrealitytoolkit.core-3.2.0.tgz"],
    none, none, "2022.3.5f1"⟩ rfl).1

/-- C3 — Host-version tier selection for the Meta OpenXR runtime pin: the
host comparator agrees with the spec's 5-tuple lexicographic order
(`releaseType` by character code); the two thresholds parse to
`(6000,0,0,f,0)` and `(2022,3,0,f,1)`; with the Meta package selected and a
manifest present, an undeterminable (empty) host version writes no entry
for it, and a parsed host tag pins `"2.2.0"` exactly when strictly above
the first threshold, else `"1.0.4"` exactly when strictly above the second,
else writes no entry for the identifier. -/
theorem c3_meta_tiers (oxr : List String) (fs : FS)
    (m : List (String × String))
    (hmeta : oxr.contains "com.unity.xr.meta-openxr" = true)
    (hm : fs.manifest = some m) :
    (∀ x y : UnityVersion, unityGT x y = specHostTagGt x y) ∧
    parseUnityVersion "6000.0.0" = .ok ⟨6000, 0, 0, 'f', 0⟩ ∧
    parseUnityVersion "2022.3.0f1" = .ok ⟨2022, 3, 0, 'f', 1⟩ ∧
    (fs.hostStr = "" →
      installPackagesToProject oxr fs =
        ({ fs with
            cwdTgz := [],
            projectMR := some fs.cwdTgz,
            manifest := some (installBase oxr fs.cwdTgz m) }, .instOk)) ∧
    (∀ cv : UnityVersion, fs.hostStr ≠ "" →
      parseUnityVersion fs.hostStr = .ok cv →
      installPackagesToProject oxr fs =
        ({ fs with
            cwdTgz := [],
            projectMR := some fs.cwdTgz,
            manifest := some
              (if unityGT cv ⟨6000, 0, 0, 'f', 0⟩ then
                mapSet (installBase oxr fs.cwdTgz m)
                  "com.unity.xr.meta-openxr" "2.2.0"
              else if unityGT cv ⟨2022, 3, 0, 'f', 1⟩ then
                mapSet (installBase oxr fs.cwdTgz m)
                  "com.unity.xr.meta-openxr" "1.0.4"
              else installBase oxr fs.cwdTgz m) }, .instOk)) := by
  refine ⟨unityGT_spec, rfl, rfl, ?_, ?_⟩
  · intro h0
    simp only [installPackagesToProject, hm, hmeta, if_true]
    rw [if_neg (fun hh => hh h0)]
  · intro cv hne hcv
    simp only [installPackagesToProject, hm, hmeta, if_true]
    rw [if_pos hne, hcv]
    simp only [show parseUnityVersion "6000.0.0" =
      Except.ok (⟨6000, 0, 0, 'f', 0⟩ : UnityVersion) from rfl]
    cases hgt : unityGT cv ⟨6000, 0, 0, 'f', 0⟩ with
    | true => simp only [hgt, if_true]
    | false =>
      simp only [hgt, Bool.false_eq_true, if_false]
      simp only [show parseUnityVersion "2022.3.0f1" =
        Except.ok (⟨2022, 3, 0, 'f', 1⟩ : UnityVersion) from rfl]
      cases hgt2 : unityGT cv ⟨2022, 3, 0, 'f', 1⟩ with
      | true => simp only [hgt2, if_true]
      | false => simp only [hgt2, Bool.false_eq_true, if_false]

theorem c3_meta_tiers_witness :
    installPackagesToProject ["com.unity.xr.meta-openxr"]
        ⟨[], none, some [], "6000.1.0f1"⟩ =
      (⟨[], some [], some [("com.unity.xr.meta-openxr", "2.2.0")],
        "6000.1.0f1"⟩, .instOk) := by
  have h := (c3_meta_tiers ["com.unity.xr.meta-openxr"]
      ⟨[], none, some [], "6000.1.0f1"⟩ [] rfl rfl).2.2.2.2
      ⟨6000, 1, 0, 'f', 1⟩ (by decide) rfl
  rw [h]
  rfl

theorem resolveDependencies_oxr_mono (e : Engine) (deps : DepsMap)
    (fuel : Nat) (idxs : List Nat) (e' : Engine)
    (t : List (String × String))
    (h : resolveDependencies e deps fuel idxs = .done (e', t)) :
    ∀ x ∈ e.requiredOpenXrPackages, x ∈ e'.requiredOpenXrPackages := by
  simp only [resolveDependencies] at h
  cases hsel : selLoop e.allPackages idxs e.mrtkComponentVersions []
      e.requiredOpenXrPackages with
  | fuelOut => simp only [hsel] at h; cases h
  | rerror => simp only [hsel] at h; cases h
  | done out =>
    obtain ⟨cat1, rus1, oxr1⟩ := out
    simp only [hsel] at h
    cases hrr : resolveRoots deps fuel rus1 ⟨[], [], []⟩ with
    | fuelOut => simp only [hrr] at h; cases h
    | rerror => simp only [hrr] at h; cases h
    | done s =>
      simp only [hrr] at h
      cases h
      intro x hx
      exact selLoop_oxr_mono e.allPackages idxs _ _ _ (cat1, rus1, oxr1)
        hsel x hx

theorem installBase_microsoft (oxr staged : List String)
    (m : List (String × String))
    (hcont : oxr.contains "com.microsoft.mixedreality.openxr" = true) :
    mapGet (installBase oxr staged m) "com.microsoft.mixedreality.openxr" =
      some "1.11.2" := by
  simp only [installBase, installMicrosoftPin, hcont, if_true]
  exact mapGet_mapSet_self _ _ _

theorem install_pin_microsoft (oxr : List String) (fs fs' : FS)
    (hcont : oxr.contains "com.microsoft.mixedreality.openxr" = true)
    (h : installPackagesToProject oxr fs = (fs', .instOk)) :
    ∃ m', fs'.manifest = some m' ∧
      mapGet m' "com.microsoft.mixedreality.openxr" = some "1.11.2" := by
  simp only [installPackagesToProject] at h
  cases hm : fs.manifest with
  | none =>
    simp only [hm] at h
    cases h
  | some mj =>
    simp only [hm] at h
    have hbase := installBase_microsoft oxr fs.cwdTgz mj hcont
    cases hmeta : oxr.contains "com.unity.xr.meta-openxr" with
    | false =>
      simp only [hmeta, Bool.false_eq_true, if_false] at h
      refine ⟨installBase oxr fs.cwdTgz mj, ?_, hbase⟩
      injection h with hfs hres
      rw [← hfs]
    | true =>
      simp only [hmeta, if_true] at h
      by_cases hhs : fs.hostStr = ""
      · rw [if_neg (fun hh => hh hhs)] at h
        refine ⟨installBase oxr fs.cwdTgz mj, ?_, hbase⟩
        injection h with hfs hres
        rw [← hfs]
      · rw [if_pos hhs] at h
        cases hpv : parseUnityVersion fs.hostStr with
        | error u =>
          simp only [hpv] at h
          cases h
        | ok cv =>
          simp only [hpv] at h
          simp only [show parseUnityVersion "6000.0.0" =
            Except.ok (⟨6000, 0, 0, 'f', 0⟩ : UnityVersion) from rfl] at h
          cases hgt : unityGT cv ⟨6000, 0, 0, 'f', 0⟩ with
          | true =>
            simp only [hgt, if_true] at h
            refine ⟨mapSet (installBase oxr fs.cwdTgz mj)
              "com.unity.xr.meta-openxr" "2.2.0", ?_, ?_⟩
            · injection h with hfs hres
              rw [← hfs]
            · rw [mapGet_mapSet_ne _ _ _ _ (by decide)]
              exact hbase
          | false =>
            simp only [hgt, Bool.false_eq_true, if_false] at h
            simp only [show parseUnityVersion "2022.3.0f1" =
              Except.ok (⟨2022, 3, 0, 'f', 1⟩ : UnityVersion) from rfl] at h
            cases hgt2 : unityGT cv ⟨2022, 3, 0, 'f', 1⟩ with
            | true =>
              simp only [hgt2, if_true] at h
              refine ⟨mapSet (installBase oxr fs.cwdTgz mj)
                "com.unity.xr.meta-openxr" "1.0.4", ?_, ?_⟩
              · injection h with hfs hres
                rw [← hfs]
              · rw [mapGet_mapSet_ne _ _ _ _ (by decide)]
                exact hbase
            | false =>
              simp only [hgt2, Bool.false_eq_true, if_false] at h
              refine ⟨installBase oxr fs.cwdTgz mj, ?_, hbase⟩
              injection h with hfs hres
              rw [← hfs]

theorem mem_contains_str (l : List String) (x : String) (h : x ∈ l) :
    l.contains x = true := by
  induction l with
  | nil => cases h
  | cons a t ih =>
    rcases List.mem_cons.mp h with h | h
    · subst h
      simp [List.contains_cons]
    · simp [List.contains_cons]
      exact Or.inr h

/-- C10 — The runtime selection persists across resolutions:
`resolveDependencies` rebuilds the MRTK requirement maps from scratch but
never clears `requiredOpenXrPackages`, so across two successive successful
invocations on one engine the runtime set only grows, and a runtime package
(here the fixed Microsoft OpenXR package) selected before the first
invocation is still pinned to `"1.11.2"` by any later successful
`installPackagesToProject`, whether or not the latest selection contains
it. -/
theorem c10_runtime_persists (e : Engine) (deps₁ deps₂ : DepsMap)
    (fuel₁ fuel₂ : Nat) (idxs₁ idxs₂ : List Nat) (e₁ e₂ : Engine)
    (t₁ t₂ : List (String × String))
    (h1 : resolveDependencies e deps₁ fuel₁ idxs₁ = .done (e₁, t₁))
    (h2 : resolveDependencies e₁ deps₂ fuel₂ idxs₂ = .done (e₂, t₂)) :
    (∀ x ∈ e.requiredOpenXrPackages, x ∈ e₂.requiredOpenXrPackages) ∧
    (∀ fs fs' : FS,
      "com.microsoft.mixedreality.openxr" ∈ e.requiredOpenXrPackages →
      installPackagesToProject e₂.requiredOpenXrPackages fs =
        (fs', .instOk) →
      ∃ m', fs'.manifest = some m' ∧
        mapGet m' "com.microsoft.mixedreality.openxr" = some "1.11.2") := by
  have hmono : ∀ x ∈ e.requiredOpenXrPackages,
      x ∈ e₂.requiredOpenXrPackages := fun x hx =>
    resolveDependencies_oxr_mono e₁ deps₂ fuel₂ idxs₂ e₂ t₂ h2 x
      (resolveDependencies_oxr_mono e deps₁ fuel₁ idxs₁ e₁ t₁ h1 x hx)
  refine ⟨hmono, ?_⟩
  intro fs fs' hms hinst
  exact install_pin_microsoft e₂.requiredOpenXrPackages fs fs'
    (mem_contains_str _ _ (hmono _ hms)) hinst

theorem c10_runtime_persists_witness :
    (∀ x ∈ ["com.microsoft.mixedreality.openxr"],
      x ∈ ["com.microsoft.mixedreality.openxr"]) ∧
    (∀ fs fs' : FS,
      "com.microsoft.mixedreality.openxr" ∈
        ["com.microsoft.mixedreality.openxr"] →
      installPackagesToProject ["com.microsoft.mixedreality.openxr"] fs =
        (fs', .instOk) →
      ∃ m', fs'.manifest = some m' ∧
        mapGet m' "com.microsoft.mixedreality.openxr" = some "1.11.2") :=
  c10_runtime_persists
    ⟨[], [], [], [], [], ["com.microsoft.mixedreality.openxr"]⟩ [] [] 1 1
    [] [] ⟨[], [], [], [], [], ["com.microsoft.mixedreality.openxr"]⟩
    ⟨[], [], [], [], [], ["com.microsoft.mixedreality.openxr"]⟩ [] []
    rfl rfl

/-- C5 — Resolution is idempotent on a well-formed catalog: a second
`resolveDependencies` run with the same selection, dependency table and
fuel on the engine a successful first run produced succeeds and reproduces
the same `resolvedUserSelections`, `requiredMrtkPackages` and
`resolvedDependencies`.  (The catalog well-formedness hypothesis is
`std::sort`'s strict-weak-order precondition; every catalog the tool
builds satisfies it because its versions come from the filename grammar.) -/
theorem c5_resolution_idempotent (e : Engine) (deps : DepsMap) (fuel : Nat)
    (idxs : List Nat) (e₁ : Engine) (t₁ : List (String × String))
    (hwf : CatalogWF e.mrtkComponentVersions)
    (h1 : resolveDependencies e deps fuel idxs = .done (e₁, t₁)) :
    ∃ e₂ t₂, resolveDependencies e₁ deps fuel idxs = .done (e₂, t₂) ∧
      e₂.resolvedUserSelections = e₁.resolvedUserSelections ∧
      e₂.requiredMrtkPackages = e₁.requiredMrtkPackages ∧
      e₂.resolvedDependencies = e₁.resolvedDependencies := by
  simp only [resolveDependencies] at h1
  cases hsel : selLoop e.allPackages idxs e.mrtkComponentVersions []
      e.requiredOpenXrPackages with
  | fuelOut => simp only [hsel] at h1; cases h1
  | rerror => simp only [hsel] at h1; cases h1
  | done out =>
    obtain ⟨cat1, rus1, oxr1⟩ := out
    simp only [hsel] at h1
    cases hrr : resolveRoots deps fuel rus1 ⟨[], [], []⟩ with
    | fuelOut => simp only [hrr] at h1; cases h1
    | rerror => simp only [hrr] at h1; cases h1
    | done s =>
      simp only [hrr] at h1
      cases h1
      obtain ⟨hrel, hwf1⟩ := selLoop_run_rel e.allPackages idxs
        e.mrtkComponentVersions e.mrtkComponentVersions []
        e.requiredOpenXrPackages (cat1, rus1, oxr1) hwf (catRel_refl _) hsel
      obtain ⟨catB', oxrB', hB⟩ := selLoop_two_runs e.allPackages idxs
        e.mrtkComponentVersions cat1 [] e.requiredOpenXrPackages oxr1
        (cat1, rus1, oxr1) hwf hrel hsel
      refine ⟨{ allPackages := e.allPackages,
                mrtkComponentVersions := catB',
                requiredMrtkPackages := s.required,
                resolvedUserSelections := rus1,
                resolvedDependencies :=
                  deriveResolvedDependencies s.required rus1,
                requiredOpenXrPackages := oxrB' },
        s.calls, ?_, rfl, rfl, rfl⟩
      simp only [resolveDependencies, hB, hrr]

theorem c5_resolution_idempotent_witness :
    CatalogWF [("core", ["3.2.0"])] ∧
    (∃ e₂ t₂,
      resolveDependencies
        ⟨[⟨"MRTK Core", "core", PackageType.MRTK⟩], [("core", ["3.2.0"])],
          [("core", "3.2.0")], [("core", "3.2.0")], [], []⟩ [] 1 [0] =
        .done (e₂, t₂) ∧
      e₂.resolvedUserSelections = [("core", "3.2.0")] ∧
      e₂.requiredMrtkPackages = [("core", "3.2.0")] ∧
      e₂.resolvedDependencies = []) :=
  ⟨by unfold CatalogWF; decide,
    c5_resolution_idempotent
      ⟨[⟨"MRTK Core", "core", PackageType.MRTK⟩], [("core", ["3.2.0"])],
        [], [], [], []⟩ [] 1 [0]
      ⟨[⟨"MRTK Core", "core", PackageType.MRTK⟩], [("core", ["3.2.0"])],
        [("core", "3.2.0")], [("core", "3.2.0")], [], []⟩
      [("core", "3.2.0")] (by unfold CatalogWF; decide) rfl⟩

/-- C7 — Comparator parse failure, amended to `std::stoi` semantics: the
comparison surfaces a parse error whenever some element of either dotted
main sequence fails `std::stoi` (no digit after optional whitespace and
sign, or a value beyond `INT_MAX`); an element that merely has trailing
junk after a numeric prefix (e.g. `"1x"`) is silently truncated instead
(see the counterexample). -/
theorem c7_parse_error (v1 v2 : String)
    (h : (∃ t ∈ cppSplit '.' (mainPart v1).data, cppStoi t = none) ∨
         (∃ t ∈ cppSplit '.' (mainPart v2).data, cppStoi t = none)) :
    isNewerVersion v1 v2 = .error () := by
  simp only [isNewerVersion, bind, Except.bind]
  rcases h with h | h
  · rw [mapStoi_error _ h]
  · cases hm1 : mapStoi (cppSplit '.' (mainPart v1).data) with
    | error u =>
      cases u
      rfl
    | ok l =>
      rw [mapStoi_error _ h]

theorem c7_parse_error_witness :
    isNewerVersion "x.0.0" "1.0.0" = .error () :=
  c7_parse_error "x.0.0" "1.0.0" (Or.inl ⟨"x", by decide, rfl⟩)

theorem c7_truncation_cex :
    "1x" ∈ cppSplit '.' (mainPart "1x.0.0").data ∧
    ("1x".data.all Char.isDigit) = false ∧
    isNewerVersion "1x.0.0" "2.0.0" = .ok true :=
  ⟨by decide, by decide, rfl⟩

/-- C6 — Externally-managed namespace filtering, amended: the walk skips
every dependency declared with the `com.unity.` prefix entirely — running
on the dependency table with those entries deleted is indistinguishable —
but a key beginning with `com.unity.` can still enter
`requiredMrtkPackages` through the 24-character strip of an
`org.mixedrealitytoolkit`-prefixed declared name (see the
counterexample). -/
theorem c6_unity_skip (deps : DepsMap) (fuel : Nat)
    (roots : List (String × String)) (s : RState) :
    (∀ p : String × String, strStartsWith p.1 "com.unity." = true →
      childPair p = none) ∧
    resolveRoots (filterDepsMap deps) fuel roots s =
      resolveRoots deps fuel roots s :=
  ⟨fun p hp => by simp [childPair, hp],
    resolveRoots_filterDeps fuel deps roots s⟩

theorem c6_alias_cex :
    ("com.unity.f", "1.0.0") ∈
      [("com.unity.f", "1.0.0"),
       ("org.mixedrealitytoolkit.com.unity.f", "1.0.0")] ∧
    strStartsWith "com.unity.f" "com.unity." = true ∧
    resolveRoots
        [(("root", "1.0.0"),
          [("com.unity.f", "1.0.0"),
           ("org.mixedrealitytoolkit.com.unity.f", "1.0.0")])] 2
        [("root", "1.0.0")] ⟨[], [], []⟩ =
      .done ⟨[("com.unity.f", "1.0.0"), ("root", "1.0.0")],
        ["com.unity.f-1.0.0", "root-1.0.0"],
        [("root", "1.0.0"), ("com.unity.f", "1.0.0")]⟩ ∧
    mapGet [("com.unity.f", "1.0.0"), ("root", "1.0.0")] "com.unity.f" =
      some "1.0.0" :=
  ⟨by decide, by decide, rfl, by decide⟩

/-- C2 — Comparator correctness, amended with the `std::stoi` bound: for
every pair of well-formed version strings — any dotted-integer main
sequence (each element a non-empty digit run, so `specParseVersion`
succeeds) with an optional `-`-separated pre-release tag — whose numeric
elements fit `INT_MAX` (`versionBounded`), `isNewerVersion` returns
exactly the spec's reference ordering `specNewer` of the parsed versions:
main sequences element-wise as integers with first difference deciding and
a longer main sequence winning on an equal shared prefix; untagged newer
than tagged at equal mains; tags element-wise, numerically when both parts
are all digits and as strings otherwise, the longer tag winning on equal
shared parts — in particular `3.2.0-pre.5 < 3.2.0-pre.12` numerically.  A
well-formed version with an element beyond `INT_MAX` instead makes the
comparison fail (see the counterexample). -/
theorem c2_comparator_spec (v1 v2 : String)
    (p1 p2 : List Nat × Option (List String))
    (h1 : specParseVersion v1 = some p1) (h2 : specParseVersion v2 = some p2)
    (b1 : versionBounded v1 = true) (b2 : versionBounded v2 = true) :
    isNewerVersion v1 v2 = .ok (specNewer p1.1 p1.2 p2.1 p2.2) ∧
    isNewerVersion "3.2.0-pre.5" "3.2.0-pre.12" = .ok true :=
  ⟨isNewerVersion_spec v1 v2 p1 p2 h1 h2 b1 b2, rfl⟩

theorem c2_comparator_spec_witness :
    specParseVersion "1.2" = some ([1, 2], none) ∧
    specParseVersion "1.2.0-rc.2" = some ([1, 2, 0], some ["rc", "2"]) ∧
    versionBounded "1.2" = true ∧ versionBounded "1.2.0-rc.2" = true ∧
    (isNewerVersion "1.2" "1.2.0-rc.2" =
        .ok (specNewer [1, 2] none [1, 2, 0] (some ["rc", "2"])) ∧
      isNewerVersion "3.2.0-pre.5" "3.2.0-pre.12" = .ok true) :=
  ⟨rfl, rfl, rfl, rfl,
    c2_comparator_spec "1.2" "1.2.0-rc.2" ([1, 2], none)
      ([1, 2, 0], some ["rc", "2"]) rfl rfl rfl rfl⟩

theorem c2_overflow_cex :
    specParseVersion "2147483648.0.0" = some ([2147483648, 0, 0], none) ∧
    specNewer [1, 0, 0] none [2147483648, 0, 0] none = true ∧
    isNewerVersion "1.0.0" "2147483648.0.0" = .error () :=
  ⟨rfl, rfl, rfl⟩

/-- C1 — Newest-wins invariant, amended: on a run from an empty state the
requirement map holds at most one entry per identifier (its keys are
pairwise distinct), and every recorded version was one of the versions the
walk was invoked with for that identifier, with no invoked version strictly
newer than it — provided the comparator is transitive on the
identifier/version pairs actually in play (`TransOn`) and the
`component ++ "-" ++ version` keys of those pairs do not collide
(`KeyInj`).  Without the transitivity proviso the recorded version need not
be maximal: `isNewerVersion` is cyclic on mixed numeric and non-numeric
pre-release tags (see the counterexample). -/
theorem c1_newest_wins (deps : DepsMap) (fuel : Nat)
    (roots : List (String × String)) (s' : RState)
    (hT : TransOn (reqPairs deps roots)) (hI : KeyInj (reqPairs deps roots))
    (h : resolveRoots deps fuel roots ⟨[], [], []⟩ = .done s') :
    (s'.required.map Prod.fst).Nodup ∧
    (∀ c w, mapGet s'.required c = some w →
      w ∈ invokedFor s'.calls c ∧
      ∀ u ∈ invokedFor s'.calls c, isNewerVersion w u ≠ .ok true) := by
  constructor
  · exact pairwise_keys_nodup _
      (resolveRoots_sortedReq deps fuel roots _ s' h List.Pairwise.nil)
  · have hinv : WalkInv (reqPairs deps roots) s' := by
      refine resolveRoots_walkInv (reqPairs deps roots) hT hI deps
        (fun c v l hl => depsGet_childPair_mem_reqPairs deps roots c v l hl)
        fuel roots ⟨[], [], []⟩ s'
        (fun p hp => roots_mem_reqPairs deps roots p hp) h
        ⟨?_, ?_, ?_, ?_⟩
      · intro p hp
        cases hp
      · intro c w hcw
        cases hcw
      · intro k hk
        cases hk
      · intro c _
        rfl
    exact hinv.2.1

theorem c1_newest_wins_witness :
    (((⟨[("core", "3.2.0")], ["core-3.2.0"], [("core", "3.2.0")]⟩ :
        RState).required.map Prod.fst).Nodup) ∧
    (∀ c w, mapGet (⟨[("core", "3.2.0")], ["core-3.2.0"],
        [("core", "3.2.0")]⟩ : RState).required c = some w →
      w ∈ invokedFor (⟨[("core", "3.2.0")], ["core-3.2.0"],
        [("core", "3.2.0")]⟩ : RState).calls c ∧
      ∀ u ∈ invokedFor (⟨[("core", "3.2.0")], ["core-3.2.0"],
        [("core", "3.2.0")]⟩ : RState).calls c,
        isNewerVersion w u ≠ .ok true) :=
  c1_newest_wins [] 1 [("core", "3.2.0")]
    ⟨[("core", "3.2.0")], ["core-3.2.0"], [("core", "3.2.0")]⟩
    (by
      intro p hp q hq r hr hpq hqr hab hbc
      simp [reqPairs] at hp hq hr
      subst hp
      subst hq
      subst hr
      exact hab)
    (by
      intro p hp q hq hk
      simp [reqPairs] at hp hq
      subst hp
      subst hq
      rfl)
    rfl

theorem c1_cyclic_comparator_cex :
    resolveRoots
        [(("X", "1.0.0-9"), [("X", "1.0.0-10")]),
         (("X", "1.0.0-10"), [("X", "1.0.0-1a")])] 3
        [("X", "1.0.0-9")] ⟨[], [], []⟩ =
      .done ⟨[("X", "1.0.0-1a")],
        ["X-1.0.0-10", "X-1.0.0-1a", "X-1.0.0-9"],
        [("X", "1.0.0-9"), ("X", "1.0.0-10"), ("X", "1.0.0-1a")]⟩ ∧
    "1.0.0-9" ∈ invokedFor
      [("X", "1.0.0-9"), ("X", "1.0.0-10"), ("X", "1.0.0-1a")] "X" ∧
    isNewerVersion "1.0.0-1a" "1.0.0-9" = .ok true :=
  ⟨rfl, by decide, rfl⟩

/-- C8 — Filename grammar parsing, amended to `std::regex_search`
semantics: `extractComponentInfo` returns a non-empty identifier exactly
when SOME SUBSTRING of the asset name matches
`org.mixedrealitytoolkit.<identifier>-<version>.tgz` with the version
matching the grammar — not only when the whole name does — and the
canonical name `org.mixedrealitytoolkit.core-3.2.0.tgz` parses to
`("core", "3.2.0")`. -/
theorem c8_filename_grammar :
    (∀ s : String, (extractComponentInfo s).1 ≠ "" ↔ SubMatch s) ∧
    extractComponentInfo "org.mixedrealitytoolkit.core-3.2.0.tgz" =
      ("core", "3.2.0") := by
  refine ⟨?_, rfl⟩
  intro s
  constructor
  · intro hne
    unfold extractComponentInfo at hne
    cases hr : regexSearchECI s.data with
    | none =>
      rw [hr] at hne
      exact absurd rfl hne
    | some r =>
      obtain ⟨i, v⟩ := r
      exact (search_some_subMatch s i v hr).1
  · intro hsm
    unfold extractComponentInfo
    cases hr : regexSearchECI s.data with
    | none => exact absurd hr (subMatch_search s hsm)
    | some r =>
      obtain ⟨i, v⟩ := r
      have hi := (search_some_subMatch s i v hr).2
      simpa using hi

theorem c8_substring_cex :
    extractComponentInfo "xorg.mixedrealitytoolkit.core-3.2.0.tgz" =
      ("core", "3.2.0") ∧
    ¬ FullMatch "xorg.mixedrealitytoolkit.core-3.2.0.tgz" := by
  refine ⟨rfl, ?_⟩
  intro hfm
  obtain ⟨id, ver, heq, _, _⟩ := hfm
  have hpre : ("org.mixedrealitytoolkit.".data).isPrefixOf
      ("xorg.mixedrealitytoolkit.core-3.2.0.tgz".data) = true := by
    rw [heq]
    exact isPrefixOf_append_self _ _
  exact absurd hpre (by decide)

end MRTKTool
